import Mathlib

/-!
# The redis-string output module (`src/output_modules/module_redis_str.c`)

A shallow embedding of the record encoder (`guess_csv_string_length`,
`hex_encode_str`, `make_csv_string`) and of the batch controller
(`redisstrmodule_init`, `redisstrmodule_flush`, `redisstrmodule_process`,
`redisstrmodule_close`), followed by theorems about them.

Modelling conventions.

* A C `char` is a `Char`; a block of memory is the list of its bytes.  A C
  string stored in a block is the run of bytes before the first `NUL`.
* A record (`fieldset_t`) is the list of its fields, `fs->len` its length.
  The text value of a string field is the list of the bytes before its
  terminator, so a well-formed value contains no `NUL` (`NulFree`).
* `size_t` values are `Nat`; every `size_t` addition or multiplication of the
  source is followed by `% SIZE_T`.
* Pointers are indices into a heap of blocks; `buffer[i].str` and
  `buffer_export[i]` are such pointers, kept in two separate arrays as in
  the source.
* Three things can stop a function before it returns: the two `log_fatal`
  calls of the source and an access outside the block or array that is
  addressed (undefined behaviour in C).  They are the three values of
  `Fault`.
* The redis library is outside the module: the calls made into it are
  appended to a log, and what it returns is a function of that log (`Env`).
-/

namespace RedisStr

/-! ## Constants of the source -/

/-- The value of `BUFFER_SIZE` (source line 26). -/
def BUFFER_SIZE : Nat := 500

/-- The value of `DEFAULT_STR_LEN` (source line 27). -/
def DEFAULT_STR_LEN : Nat := 1024

/-- The value of `INT_STR_LEN` (source line 75). -/
def INT_STR_LEN : Nat := 20

/-- The number of values of `size_t` (64-bit target). -/
def SIZE_T : Nat := 2 ^ 64

/-- The value of `EXIT_SUCCESS`. -/
def EXIT_SUCCESS : Int := 0

/-- The value of `EXIT_FAILURE`. -/
def EXIT_FAILURE : Int := 1

/-- The string terminator. -/
def NUL : Char := Char.ofNat 0

/-- The delimiter written by `sprintf(temp, ",")`. -/
def COMMA : Char := ','

/-- The quote character of the format `"\"%s\""`. -/
def QUOTE : Char := Char.ofNat 34

/-! ## Records -/

/-- One field of a record (`field_t`): its `type` tag together with the part
of `value` that the tag selects.  For `FS_BINARY` the list is the `f->len`
bytes at `value.ptr`.  `FS_OTHER` stands for every tag that the module does
not recognise. -/
inductive field_t where
  | FS_STRING (ptr : List Char)
  | FS_UINT64 (num : Nat)
  | FS_BINARY (ptr : List Nat)
  | FS_NULL
  | FS_OTHER
  deriving DecidableEq, Repr

/-- A record (`fieldset_t`): the fields `fs->fields[0 .. fs->len - 1]`. -/
abbrev fieldset_t := List field_t

/-- The ways a call can stop without returning. -/
inductive Fault where
  /-- The call `log_fatal("redis-str", "out of memory---will overflow")`. -/
  | fatal_overflow
  /-- The call `log_fatal("csv", "received unknown output type ...")`. -/
  | fatal_type
  /-- An access outside the addressed block, or through a freed pointer. -/
  | memory
  deriving DecidableEq, Repr

/-! ## The C library calls used by the encoder -/

/-- The call `memset(out, 0, len)` on the block `out`. -/
def memset0 (out : List Char) (len : Nat) : Except Fault (List Char) :=
  if len ≤ out.length then .ok (List.replicate len NUL ++ out.drop len)
  else .error Fault.memory

/-- The call `strlen(m + p)`: the number of bytes from offset `p` up to the first
`NUL`. -/
def strlen (m : List Char) (p : Nat) : Except Fault Nat :=
  if NUL ∈ m.drop p then .ok ((m.drop p).takeWhile (fun c => c != NUL)).length
  else .error Fault.memory

/-- The call `sprintf(m + p, ...)` where the formatted text is `s`: the bytes of `s`
and a terminator are stored from offset `p` on. -/
def sprintf (m : List Char) (p : Nat) (s : List Char) : Except Fault (List Char) :=
  if p + s.length + 1 ≤ m.length then
    .ok (m.take p ++ (s ++ NUL :: m.drop (p + s.length + 1)))
  else .error Fault.memory

/-- The text of the C string that starts the block `m`. -/
def cstr (m : List Char) : List Char := m.takeWhile (fun c => c != NUL)

/-- The text printed by `"%02x"` for an `unsigned char`. -/
def hex2 (b : Nat) : List Char :=
  [Nat.digitChar (b % 256 / 16), Nat.digitChar (b % 256 % 16)]

/-- The text printed by `"%" PRIu64` for `(uint64_t) num`. -/
def dec64 (num : Nat) : List Char := Nat.toDigits 10 (num % 2 ^ 64)

/-! ## The encoder -/

/-- The loop of `guess_csv_string_length` (source lines 80-95), with the
running value of `len`. -/
def guess_loop : fieldset_t → Nat → Except Fault Nat
  | [], len => .ok len
  | field_t.FS_STRING ptr :: fs, len =>
      guess_loop fs (((len + ptr.length) % SIZE_T + 2) % SIZE_T)
  | field_t.FS_UINT64 _ :: fs, len => guess_loop fs ((len + INT_STR_LEN) % SIZE_T)
  | field_t.FS_BINARY ptr :: fs, len =>
      guess_loop fs ((len + 2 * ptr.length % SIZE_T) % SIZE_T)
  | field_t.FS_NULL :: fs, len => guess_loop fs len
  | field_t.FS_OTHER :: _, _ => .error Fault.fatal_type

/-- The function `guess_csv_string_length` (source lines 77-98). -/
def guess_csv_string_length (fs : fieldset_t) : Except Fault Nat :=
  match guess_loop fs 0 with
  | .ok len => .ok (((len + len) % SIZE_T + 256) % SIZE_T)
  | .error e => .error e

/-- The function `hex_encode_str` (source lines 100-107): `temp` is the offset of the
pointer `temp` in the block `f` points into. -/
def hex_encode_str (m : List Char) : Nat → List Nat → Except Fault (List Char)
  | _, [] => .ok m
  | temp, b :: readbuf =>
      match sprintf m temp (hex2 b) with
      | .ok m1 => hex_encode_str m1 (temp + 2) readbuf
      | .error e => .error e

/-- The branch of the loop body of `make_csv_string` on the field's type
(source lines 118-141); `temp` is the offset of the pointer `temp`. -/
def make_csv_value (len : Nat) (f : field_t) (out : List Char) (temp : Nat) :
    Except Fault (List Char) :=
  match f with
  | field_t.FS_STRING ptr =>
      match strlen out temp with
      | .ok l =>
          if (l + ptr.length) % SIZE_T ≥ len then .error Fault.fatal_overflow
          else if COMMA ∈ ptr then sprintf out temp (QUOTE :: (ptr ++ [QUOTE]))
          else sprintf out temp ptr
      | .error e => .error e
  | field_t.FS_UINT64 num =>
      match strlen out temp with
      | .ok l =>
          if (l + INT_STR_LEN) % SIZE_T ≥ len then .error Fault.fatal_overflow
          else sprintf out temp (dec64 num)
      | .error e => .error e
  | field_t.FS_BINARY ptr =>
      match strlen out temp with
      | .ok l =>
          if (l + 2 * ptr.length % SIZE_T) % SIZE_T ≥ len then .error Fault.fatal_overflow
          else hex_encode_str out 0 ptr
      | .error e => .error e
  | field_t.FS_NULL => .ok out
  | field_t.FS_OTHER => .error Fault.fatal_type

/-- One iteration of the loop of `make_csv_string` (source lines 113-141) for
the field of index `i`. -/
def make_csv_field (len : Nat) (i : Nat) (f : field_t) (out : List Char) :
    Except Fault (List Char) :=
  match strlen out 0 with
  | .ok temp =>
      if i ≠ 0 then
        match sprintf out temp [COMMA] with
        | .ok out1 => make_csv_value len f out1 temp
        | .error e => .error e
      else make_csv_value len f out temp
  | .error e => .error e

/-- The loop of `make_csv_string` (source line 112) from index `i` on. -/
def make_csv_loop (len : Nat) : Nat → fieldset_t → List Char → Except Fault (List Char)
  | _, [], out => .ok out
  | i, f :: fs, out =>
      match make_csv_field len i f out with
      | .ok out1 => make_csv_loop len (i + 1) fs out1
      | .error e => .error e

/-- The function `make_csv_string` (source lines 109-143): the block `out` after the
call. -/
def make_csv_string (fs : fieldset_t) (out : List Char) (len : Nat) :
    Except Fault (List Char) :=
  match memset0 out len with
  | .ok out1 => make_csv_loop len 0 fs out1
  | .error e => .error e

/-- A text without terminator inside. -/
def NulFree (s : List Char) : Prop := NUL ∉ s

instance (s : List Char) : Decidable (NulFree s) :=
  inferInstanceAs (Decidable (NUL ∉ s))


/-! ## The text that the encoder leaves in the buffer

The functions below describe, on texts, the C string that `out` holds after
each iteration of the loop of `make_csv_string`; `make_csv_loop_ok` proves
that the code computes exactly this. -/

/-- The text of a string field as lines 122-126 format it. -/
def enc_string (ptr : List Char) : List Char :=
  if COMMA ∈ ptr then QUOTE :: (ptr ++ [QUOTE]) else ptr

/-- Two lowercase hexadecimal digits per byte, in byte order. -/
def hex : List Nat → List Char
  | [] => []
  | b :: bs => hex2 b ++ hex bs

/-- The text in `out` after the iteration for field `f` of index `i`, when the
text before it was `t`. -/
def field_text (i : Nat) (f : field_t) (t : List Char) : List Char :=
  match f with
  | field_t.FS_STRING ptr => t ++ enc_string ptr
  | field_t.FS_UINT64 num => t ++ dec64 num
  | field_t.FS_BINARY [] => if i ≠ 0 then t ++ [COMMA] else t
  | field_t.FS_BINARY (b :: bs) => hex (b :: bs)
  | field_t.FS_NULL => if i ≠ 0 then t ++ [COMMA] else t
  | field_t.FS_OTHER => t

/-- The text in `out` after the iterations for the fields `fs`, the first of
which has index `i`, when the text before them was `t`. -/
def loop_text : Nat → fieldset_t → List Char → List Char
  | _, [], t => t
  | i, f :: fs, t => loop_text (i + 1) fs (field_text i f t)

/-- The text in `out` after `make_csv_string` on the record `fs`. -/
def csv_text (fs : fieldset_t) : List Char := loop_text 0 fs []

/-- The value of `strlen(temp)` at the capacity checks: the delimiter just
written, if any. -/
def delim (i : Nat) : Nat := if i ≠ 0 then 1 else 0

/-- What the iteration for field `f` of index `i` needs in order to return,
in a block of `n` bytes that holds the text `t`, with capacity argument
`len`: the value is recognised and well formed, the capacity check of the
source passes and every store stays inside the block. -/
def FieldFits (len n i : Nat) (f : field_t) (t : List Char) : Prop :=
  (i ≠ 0 → t.length + 2 ≤ n) ∧
  match f with
  | field_t.FS_STRING ptr =>
      NulFree ptr ∧ (delim i + ptr.length) % SIZE_T < len ∧
        t.length + (enc_string ptr).length + 1 ≤ n
  | field_t.FS_UINT64 num =>
      (delim i + INT_STR_LEN) % SIZE_T < len ∧ t.length + (dec64 num).length + 1 ≤ n
  | field_t.FS_BINARY ptr =>
      (delim i + 2 * ptr.length % SIZE_T) % SIZE_T < len ∧
        (ptr ≠ [] → 2 * ptr.length + 1 ≤ n)
  | field_t.FS_NULL => True
  | field_t.FS_OTHER => False

/-- The predicate `FieldFits` for every iteration of the loop. -/
def Fits (len n : Nat) : Nat → fieldset_t → List Char → Prop
  | _, [], _ => True
  | i, f :: fs, t => FieldFits len n i f t ∧ Fits len n (i + 1) fs (field_text i f t)

/-! ## Sizes -/

/-- What one field adds to `len` in the loop of `guess_csv_string_length`,
before reduction modulo `SIZE_T`. -/
def field_est : field_t → Nat
  | field_t.FS_STRING ptr => ptr.length + 2
  | field_t.FS_UINT64 _ => INT_STR_LEN
  | field_t.FS_BINARY ptr => 2 * ptr.length
  | field_t.FS_NULL => 0
  | field_t.FS_OTHER => 0

/-- The sum of `field_est` over a record. -/
def est_sum : fieldset_t → Nat
  | [] => 0
  | f :: fs => field_est f + est_sum fs

/-- A record without a field of an unrecognised kind. -/
def Recognised (fs : fieldset_t) : Prop := ∀ f ∈ fs, f ≠ field_t.FS_OTHER

instance (fs : fieldset_t) : Decidable (Recognised fs) :=
  inferInstanceAs (Decidable (∀ f ∈ fs, f ≠ field_t.FS_OTHER))

/-- A field of a recognised kind whose text, if it is a string, is a C
string. -/
def field_wf : field_t → Prop
  | field_t.FS_STRING ptr => NulFree ptr
  | field_t.FS_OTHER => False
  | _ => True

instance : DecidablePred field_wf := fun f =>
  match f with
  | field_t.FS_STRING ptr => inferInstanceAs (Decidable (NulFree ptr))
  | field_t.FS_UINT64 _ => isTrue trivial
  | field_t.FS_BINARY _ => isTrue trivial
  | field_t.FS_NULL => isTrue trivial
  | field_t.FS_OTHER => isFalse (fun h => h)

/-- A record of well-formed fields of recognised kinds. -/
def WellFormed (fs : fieldset_t) : Prop := ∀ f ∈ fs, field_wf f

instance (fs : fieldset_t) : Decidable (WellFormed fs) :=
  inferInstanceAs (Decidable (∀ f ∈ fs, field_wf f))

/-- A field that passes the capacity check of `make_csv_string` for the
capacity argument `len` at every index. -/
def field_check (len : Nat) : field_t → Prop
  | field_t.FS_STRING ptr => 1 + ptr.length < len
  | field_t.FS_UINT64 _ => 1 + INT_STR_LEN < len
  | field_t.FS_BINARY ptr => 1 + 2 * ptr.length < len
  | _ => True

instance (len : Nat) : DecidablePred (field_check len) := fun f =>
  match f with
  | field_t.FS_STRING ptr => inferInstanceAs (Decidable (1 + ptr.length < len))
  | field_t.FS_UINT64 _ => inferInstanceAs (Decidable (1 + INT_STR_LEN < len))
  | field_t.FS_BINARY ptr => inferInstanceAs (Decidable (1 + 2 * ptr.length < len))
  | field_t.FS_NULL => isTrue trivial
  | field_t.FS_OTHER => isTrue trivial

/-- A record all of whose fields pass the capacity checks for `len`. -/
def Checks (len : Nat) (fs : fieldset_t) : Prop := ∀ f ∈ fs, field_check len f

instance (len : Nat) (fs : fieldset_t) : Decidable (Checks len fs) :=
  inferInstanceAs (Decidable (∀ f ∈ fs, field_check len f))

/-! ## The state of the module and its environment

Pointers are indices into `heap`, the list of the blocks allocated so far;
a freed block is `none`, and index 0 is the null pointer.  `xmalloc` puts the
new block at the end, so it never returns a pointer that is still in use.
`xmalloc` and `xcalloc` are taken to return (they end the process
themselves when memory is exhausted). -/

/-- A pointer to the first byte of a block. -/
abbrev Ptr := Nat

/-- The heap: block `p` is `heap[p]`, `none` once freed. -/
abbrev Heap := List (Option (List Char))

/-- The type `varchar_t` (source lines 29-32). -/
structure varchar_t where
  len : Nat
  str : Ptr
  deriving DecidableEq, Repr

/-- A call into the redis library, with what the callee can read through its
arguments. -/
inductive SinkCall where
  | redis_init (args : Option String)
  | redis_lpush_strings (queue : String) (strings : List (List Char))
  | redis_close
  deriving DecidableEq, Repr

/-- What the module does not decide. -/
structure Env where
  /-- The value returned by the library call that is last in the log. -/
  sink : List SinkCall → Int
  /-- The byte at each offset of the block that `xmalloc` returns at a
  pointer (`xmalloc` does not initialise it). -/
  junk : Ptr → Nat → Char
  /-- The `list_name` of `redis_parse_connstr(args)`. -/
  list_name : String → String

/-- The static variables of the module (source lines 34-37), the heap and the
log of the calls made into the redis library, oldest first. -/
structure State where
  heap : Heap
  buffer : List varchar_t
  buffer_export : List Ptr
  buffer_fill : Int
  queue_name : String
  log : List SinkCall

/-- The call `xmalloc(n)`: the heap with the new block, and the pointer to it. -/
def xmalloc (env : Env) (heap : Heap) (n : Nat) : Heap × Ptr :=
  (heap ++ [some ((List.range n).map (env.junk heap.length))], heap.length)

/-- The call `free(p)`. -/
def free (heap : Heap) (p : Ptr) : Except Fault Heap :=
  match heap[p]? with
  | some (some _) => .ok (heap.set p none)
  | _ => .error Fault.memory

/-- The block that `p` points to. -/
def load (heap : Heap) (p : Ptr) : Except Fault (List Char) :=
  match heap[p]? with
  | some (some b) => .ok b
  | _ => .error Fault.memory

/-- The element `a[i]` of an array of `BUFFER_SIZE` elements. -/
def at_index {α : Type} (a : List α) (i : Int) : Except Fault α :=
  if 0 ≤ i ∧ i < BUFFER_SIZE then
    match a[i.toNat]? with
    | some x => .ok x
    | none => .error Fault.memory
  else .error Fault.memory

/-- The C string at `p`, as a callee reads it. -/
def read_string (heap : Heap) (p : Ptr) : Except Fault (List Char) :=
  match load heap p with
  | .ok b => if NUL ∈ b then .ok (cstr b) else .error Fault.memory
  | .error e => .error e

/-- The C strings at the pointers `ps`, in order. -/
def read_each (heap : Heap) : List Ptr → Except Fault (List (List Char))
  | [] => .ok []
  | p :: ps =>
      match read_string heap p with
      | .ok t =>
          match read_each heap ps with
          | .ok ts => .ok (t :: ts)
          | .error e => .error e
      | .error e => .error e

/-- What `redis_lpush_strings(_, buf, len)` can read: the C strings at
`buf[0 .. len - 1]`, where `buf` is an array of `BUFFER_SIZE` pointers. -/
def read_strings (heap : Heap) (buf : List Ptr) (len : Int) :
    Except Fault (List (List Char)) :=
  if 0 ≤ len ∧ len ≤ BUFFER_SIZE ∧ len.toNat ≤ buf.length then
    read_each heap (buf.take len.toNat)
  else .error Fault.memory

/-! ## The batch controller -/

/-- The loop of `redisstrmodule_init` (source lines 45-48) for
`i = 0 .. k - 1`. -/
def init_loop (env : Env) : Nat → State → State
  | 0, s => s
  | k + 1, s =>
      let s1 := init_loop env k s
      let r := xmalloc env s1.heap DEFAULT_STR_LEN
      { s1 with
        heap := r.1
        buffer := s1.buffer.set k { len := DEFAULT_STR_LEN, str := r.2 }
        buffer_export := s1.buffer_export.set k r.2 }

/-- The state before the loop of `redisstrmodule_init`: the two arrays as
`xcalloc` returns them (source lines 41-43), the statics as initialised, an
empty heap and an empty log. -/
def static_init : State :=
  { heap := [none]
    buffer := List.replicate BUFFER_SIZE { len := 0, str := 0 }
    buffer_export := List.replicate BUFFER_SIZE 0
    buffer_fill := 0
    queue_name := ""
    log := [] }

/-- The function `redisstrmodule_init` (source lines 39-64): `output_args` is
`conf->output_args`, `none` when it is null.  The result is the value
returned and the state. -/
def redisstrmodule_init (env : Env) (output_args : Option String) : Int × State :=
  let s1 := init_loop env BUFFER_SIZE static_init
  let q := match output_args with
    | some args => env.list_name args
    | none => "zmap"
  let log := s1.log ++ [SinkCall.redis_init output_args]
  (env.sink log, { s1 with queue_name := q, log := log })

/-- The function `redisstrmodule_flush` (source lines 66-73). -/
def redisstrmodule_flush (env : Env) (s : State) : Except Fault (Int × State) :=
  match read_strings s.heap s.buffer_export s.buffer_fill with
  | .ok strings =>
      let log := s.log ++ [SinkCall.redis_lpush_strings s.queue_name strings]
      if env.sink log ≠ 0 then .ok (EXIT_FAILURE, { s with log := log })
      else .ok (EXIT_SUCCESS, { s with log := log, buffer_fill := 0 })
  | .error e => .error e

/-- The body of the `if` of source lines 150-154: the block of slot
`buffer_fill` is freed and replaced by a new one of `reqd_space` bytes. -/
def regrow (env : Env) (s : State) (reqd_space : Nat) : Except Fault State :=
  match at_index s.buffer s.buffer_fill with
  | .ok v =>
      match free s.heap v.str with
      | .ok heap1 =>
          let r := xmalloc env heap1 reqd_space
          match at_index s.buffer_export s.buffer_fill with
          | .ok _ =>
              .ok { s with
                    heap := r.1
                    buffer := s.buffer.set s.buffer_fill.toNat { v with str := r.2 }
                    buffer_export := s.buffer_export.set s.buffer_fill.toNat r.2 }
          | .error e => .error e
      | .error e => .error e
  | .error e => .error e

/-- Source line 155: `make_csv_string(fs, buffer[buffer_fill].str,
buffer[buffer_fill].len)`. -/
def render_slot (s : State) (fs : fieldset_t) : Except Fault State :=
  match at_index s.buffer s.buffer_fill with
  | .ok v =>
      match load s.heap v.str with
      | .ok out =>
          match make_csv_string fs out v.len with
          | .ok out1 => .ok { s with heap := s.heap.set v.str (some out1) }
          | .error e => .error e
      | .error e => .error e
  | .error e => .error e

/-- The function `redisstrmodule_process` (source lines 145-163). -/
def redisstrmodule_process (env : Env) (s : State) (fs : fieldset_t) :
    Except Fault (Int × State) :=
  match guess_csv_string_length fs with
  | .ok reqd_space =>
      match at_index s.buffer s.buffer_fill with
      | .ok v =>
          let curr_length := v.len
          match (if reqd_space > curr_length then regrow env s reqd_space else .ok s) with
          | .ok s1 =>
              match render_slot s1 fs with
              | .ok s2 =>
                  let s3 := { s2 with buffer_fill := s2.buffer_fill + 1 }
                  if s3.buffer_fill = (BUFFER_SIZE : Int) then
                    match redisstrmodule_flush env s3 with
                    | .ok (rc, s4) =>
                        if rc ≠ 0 then .ok (EXIT_FAILURE, s4) else .ok (EXIT_SUCCESS, s4)
                    | .error e => .error e
                  else .ok (EXIT_SUCCESS, s3)
              | .error e => .error e
          | .error e => .error e
      | .error e => .error e
  | .error e => .error e

/-- The function `redisstrmodule_close` (source lines 165-176). -/
def redisstrmodule_close (env : Env) (s : State) : Except Fault (Int × State) :=
  match redisstrmodule_flush env s with
  | .ok (rc, s1) =>
      if rc ≠ 0 then .ok (EXIT_FAILURE, s1)
      else
        let log := s1.log ++ [SinkCall.redis_close]
        if env.sink log ≠ 0 then .ok (EXIT_FAILURE, { s1 with log := log })
        else .ok (EXIT_SUCCESS, { s1 with log := log })
  | .error e => .error e

/-! ## Invariant of the buffer pool -/

/-- The pool as `redisstrmodule_init` sets it up and `redisstrmodule_process`
keeps it: both arrays have `BUFFER_SIZE` elements, `buffer_export[i]` is
`buffer[i].str`, every `buffer[i].str` points to a live block of at least
`buffer[i].len ≥ 1` bytes, and no two slots share a block. -/
structure Inv (s : State) : Prop where
  buffer_length : s.buffer.length = BUFFER_SIZE
  export_length : s.buffer_export.length = BUFFER_SIZE
  export_eq : ∀ (i : Nat) (v : varchar_t), s.buffer[i]? = some v →
    s.buffer_export[i]? = some v.str
  live : ∀ (i : Nat) (v : varchar_t), s.buffer[i]? = some v →
    ∃ b, s.heap[v.str]? = some (some b) ∧ v.len ≤ b.length ∧ 1 ≤ v.len
  distinct : ∀ (i j : Nat) (v w : varchar_t), s.buffer[i]? = some v →
    s.buffer[j]? = some w → v.str = w.str → i = j

/-- The strings that a flush would hand to the sink in state `s` are `ts`. -/
def Pending (s : State) (ts : List (List Char)) : Prop :=
  read_strings s.heap s.buffer_export s.buffer_fill = .ok ts

/-- Every slot has the capacity `len` recorded. -/
def AllLen (s : State) (len : Nat) : Prop := ∀ v ∈ s.buffer, v.len = len

/-- A record that `redisstrmodule_process` renders without fault into a slot
whose recorded capacity is `len`: its fields are well formed and pass the
capacity checks, the estimate does not wrap, and the number of fields is at
most the estimate's slack over the sum of the field sizes. -/
def Accepts (len : Nat) (fs : fieldset_t) : Prop :=
  WellFormed fs ∧ Checks len fs ∧ fs.length ≤ est_sum fs + 256 ∧
    2 * est_sum fs + 256 < SIZE_T

instance (len : Nat) (fs : fieldset_t) : Decidable (Accepts len fs) :=
  inferInstanceAs (Decidable (WellFormed fs ∧ Checks len fs ∧ fs.length ≤ est_sum fs + 256 ∧
    2 * est_sum fs + 256 < SIZE_T))

/-- The part of `redisstrmodule_process` before the test of the fill count
(source lines 147-157): the estimate, the regrowth of the slot, the
rendering, and `++buffer_fill`. -/
def store_record (env : Env) (s : State) (fs : fieldset_t) : Except Fault State :=
  match guess_csv_string_length fs with
  | .ok reqd_space =>
      match at_index s.buffer s.buffer_fill with
      | .ok v =>
          match (if reqd_space > v.len then regrow env s reqd_space else .ok s) with
          | .ok s1 =>
              match render_slot s1 fs with
              | .ok s2 => .ok { s2 with buffer_fill := s2.buffer_fill + 1 }
              | .error e => .error e
          | .error e => .error e
      | .error e => .error e
  | .error e => .error e

/-- Successive calls of `redisstrmodule_process`, one for each record of the
list: the values returned, in order, and the state after the last call. -/
def process_all (env : Env) : State → List fieldset_t → Except Fault (List Int × State)
  | s, [] => .ok ([], s)
  | s, fs :: rest =>
      match redisstrmodule_process env s fs with
      | .ok (rc, s1) =>
          match process_all env s1 rest with
          | .ok (rcs, s2) => .ok (rc :: rcs, s2)
          | .error e => .error e
      | .error e => .error e

/-- The calls of `redis_lpush_strings` in a log. -/
def lpush_calls (log : List SinkCall) : List SinkCall :=
  log.filter (fun c => match c with
    | SinkCall.redis_lpush_strings _ _ => true
    | _ => false)

/-- The calls of `redis_close` in a log. -/
def close_calls (log : List SinkCall) : List SinkCall :=
  log.filter (fun c => match c with
    | SinkCall.redis_close => true
    | _ => false)

/-! ## Two environments for the examples -/

/-- An environment whose sink reports success (0) to every call; the blocks
that `xmalloc` returns are filled with `x`. -/
def env_ok : Env :=
  { sink := fun _ => 0
    junk := fun _ _ => 'x'
    list_name := fun a => a }

/-- An environment whose sink reports an error (1) to every call. -/
def env_fail : Env :=
  { sink := fun _ => 1
    junk := fun _ _ => 'x'
    list_name := fun a => a }

/-! ## The text of a record without binary fields, field by field -/

/-- What the field `f` of index `i` adds to the text when no binary field is
involved: the encoding of a text or of an integer, and for a null field the
delimiter stored before it, which nothing overwrites. -/
def piece (i : Nat) : field_t → List Char
  | field_t.FS_STRING ptr => enc_string ptr
  | field_t.FS_UINT64 num => dec64 num
  | field_t.FS_NULL => if i ≠ 0 then [COMMA] else []
  | _ => []

/-- The pieces of the fields `fs`, the first of which has index `i`, one after
the other. -/
def pieces : Nat → fieldset_t → List Char
  | _, [] => []
  | i, f :: fs => piece i f ++ pieces (i + 1) fs

/-- A record without binary field. -/
def NoBinary (fs : fieldset_t) : Prop := ∀ f ∈ fs, ∀ b, f ≠ field_t.FS_BINARY b

/-! ## Reachable states -/

/-- The states reached from initialisation by calls of
`redisstrmodule_process` made while `buffer_fill < BUFFER_SIZE` and by calls
of `redisstrmodule_flush`, whatever the sink answers. -/
inductive Reach (env : Env) : State → Prop where
  | init (args : Option String) : Reach env (redisstrmodule_init env args).2
  | process (s : State) (fs : fieldset_t) (rc : Int) (s1 : State) :
      Reach env s → s.buffer_fill < BUFFER_SIZE →
      redisstrmodule_process env s fs = .ok (rc, s1) → Reach env s1
  | flush (s : State) (rc : Int) (s1 : State) :
      Reach env s → redisstrmodule_flush env s = .ok (rc, s1) → Reach env s1
/-! ## Memory lemmas -/

theorem strlen_append (t r : List Char) : strlen (t ++ r) t.length = strlen r 0 := by
  simp [strlen]

theorem strlen_text (u r : List Char) (h : NulFree u) :
    strlen (u ++ NUL :: r) 0 = .ok u.length := by
  unfold NulFree at h
  have h1 : ∀ a ∈ u, (fun c => c != NUL) a = true := by
    intro a ha
    simp only [bne_iff_ne, ne_eq]
    rintro rfl
    exact h ha
  simp only [strlen, List.drop_zero]
  rw [if_pos (by simp), List.takeWhile_append_of_pos h1]
  simp

theorem cstr_text (u r : List Char) (h : NulFree u) : cstr (u ++ NUL :: r) = u := by
  unfold NulFree at h
  have h1 : ∀ a ∈ u, (fun c => c != NUL) a = true := by
    intro a ha
    simp only [bne_iff_ne, ne_eq]
    rintro rfl
    exact h ha
  simp only [cstr]
  rw [List.takeWhile_append_of_pos h1]
  simp

theorem sprintf_append (t r s : List Char) (h : s.length + 1 ≤ r.length) :
    sprintf (t ++ r) t.length s = .ok (t ++ (s ++ NUL :: r.drop (s.length + 1))) := by
  unfold sprintf
  rw [if_pos (by simp; omega)]
  congr 2
  · simp
  · congr 2
    rw [Nat.add_assoc, List.drop_append]

theorem ite_ne_NUL (c : Prop) [Decidable c] (a b : Char) (ha : a ≠ NUL) (hb : b ≠ NUL) :
    (if c then a else b) ≠ NUL := by
  split <;> assumption

theorem digitChar_ne_NUL (n : Nat) : Nat.digitChar n ≠ NUL := by
  unfold Nat.digitChar
  repeat refine ite_ne_NUL _ _ _ (by decide) ?_
  decide

theorem toDigitsCore_nulFree (fuel : Nat) : ∀ (n : Nat) (acc : List Char),
    NulFree acc → NulFree (Nat.toDigitsCore 10 fuel n acc) := by
  induction fuel with
  | zero => intro n acc h; simpa [Nat.toDigitsCore] using h
  | succ k ih =>
    intro n acc h
    have h2 : NulFree (Nat.digitChar (n % 10) :: acc) := by
      unfold NulFree at *
      simp only [List.mem_cons, not_or]
      exact ⟨fun e => digitChar_ne_NUL _ e.symm, h⟩
    simp only [Nat.toDigitsCore]
    split
    · exact h2
    · exact ih _ _ h2

theorem dec64_nulFree (num : Nat) : NulFree (dec64 num) := by
  unfold dec64 Nat.toDigits
  exact toDigitsCore_nulFree _ _ _ (by simp [NulFree])

theorem hex2_length (b : Nat) : (hex2 b).length = 2 := rfl

theorem hex_length (bs : List Nat) : (hex bs).length = 2 * bs.length := by
  induction bs with
  | nil => rfl
  | cons b bs ih => simp [hex, hex2_length, ih]; omega

theorem hex_nulFree (bs : List Nat) : NulFree (hex bs) := by
  induction bs with
  | nil => simp [hex, NulFree]
  | cons b bs ih =>
    unfold NulFree at *
    simp only [hex, hex2, List.cons_append, List.nil_append, List.mem_cons, not_or]
    exact ⟨fun e => digitChar_ne_NUL _ e.symm, fun e => digitChar_ne_NUL _ e.symm, ih⟩

theorem enc_string_nulFree (ptr : List Char) (h : NulFree ptr) : NulFree (enc_string ptr) := by
  unfold enc_string
  split
  · unfold NulFree at *
    simp only [List.mem_cons, List.mem_append, List.mem_singleton, not_or]
    exact ⟨by decide, h, by decide⟩
  · exact h

theorem nulFree_append (a b : List Char) (ha : NulFree a) (hb : NulFree b) :
    NulFree (a ++ b) := by
  unfold NulFree at *
  simp [ha, hb]

theorem hex_encode_str_ok (bs : List Nat) : ∀ (b : Nat) (pre r : List Char),
    2 * (b :: bs).length + 1 ≤ r.length →
    hex_encode_str (pre ++ r) pre.length (b :: bs) =
      .ok (pre ++ (hex (b :: bs) ++ NUL :: r.drop (2 * (b :: bs).length + 1))) := by
  induction bs with
  | nil =>
    intro b pre r h
    simp only [List.length_singleton] at h
    simp only [hex_encode_str]
    rw [sprintf_append pre r (hex2 b) (by rw [hex2_length]; omega)]
    simp [hex, hex2_length]
  | cons b1 bs ih =>
    intro b pre r h
    simp only [List.length_cons] at h ih
    rw [hex_encode_str, sprintf_append pre r (hex2 b) (by rw [hex2_length]; omega)]
    simp only [hex2_length]
    have e1 : pre ++ (hex2 b ++ NUL :: List.drop (2 + 1) r)
        = (pre ++ hex2 b) ++ (NUL :: List.drop 3 r) := by simp
    have e2 : pre.length + 2 = (pre ++ hex2 b).length := by simp [hex2_length]
    rw [e1, e2, ih b1 (pre ++ hex2 b) (NUL :: List.drop 3 r) (by simp; omega)]
    congr 1
    simp only [List.append_assoc, List.length_cons, hex]
    congr 3
    have e3 : 2 * (bs.length + 1) + 1 = (2 * bs.length + 2) + 1 := by omega
    have e4 : 2 * (bs.length + 1 + 1) + 1 = 3 + (2 * bs.length + 2) := by omega
    rw [e3, List.drop_succ_cons, List.drop_drop, e4]

/-! ## The loop of `make_csv_string` computes `loop_text` -/

theorem comma_nulFree : NulFree [COMMA] := by
  unfold NulFree
  decide

/-- The first part of an iteration: `temp` is found and the delimiter is stored
there when `i ≠ 0`. -/
theorem make_csv_field_delim (len n i : Nat) (f : field_t) (t rest : List Char)
    (ht : NulFree t) (hn : (t ++ NUL :: rest).length = n) (hi : i ≠ 0 → t.length + 2 ≤ n) :
    ∃ r rest1, make_csv_field len i f (t ++ NUL :: rest) = make_csv_value len f (t ++ r) t.length ∧
      (t ++ r).length = n ∧ strlen r 0 = .ok (delim i) ∧
      t ++ r = (if i ≠ 0 then t ++ [COMMA] else t) ++ NUL :: rest1 := by
  unfold make_csv_field
  rw [strlen_text t rest ht]
  by_cases h0 : i = 0
  · refine ⟨NUL :: rest, rest, ?_, hn, ?_, ?_⟩
    · simp [h0]
    · have := strlen_text [] rest (by simp [NulFree])
      simpa [delim, h0] using this
    · simp [h0]
  · have hlen : ([COMMA] : List Char).length + 1 ≤ (NUL :: rest).length := by
      have := hi h0
      simp only [List.length_append, List.length_cons] at hn
      simp only [List.length_cons, List.length_nil]
      omega
    refine ⟨COMMA :: NUL :: rest.drop 1, rest.drop 1, ?_, ?_, ?_, ?_⟩
    · simp only [ne_eq, h0, not_false_eq_true, if_true]
      rw [sprintf_append t (NUL :: rest) [COMMA] hlen]
      simp
    · simp only [List.length_append, List.length_cons, List.length_drop] at hn hlen ⊢
      simp only [List.length_nil] at hlen
      omega
    · have := strlen_text [COMMA] (rest.drop 1) comma_nulFree
      simpa [delim, h0] using this
    · simp [h0]

/-- One iteration of the loop turns a block holding the text `t` into a
block of the same size holding `field_text i f t`. -/
theorem make_csv_field_ok (len n i : Nat) (f : field_t) (t rest : List Char)
    (ht : NulFree t) (hn : (t ++ NUL :: rest).length = n) (hf : FieldFits len n i f t) :
    ∃ rest1, make_csv_field len i f (t ++ NUL :: rest) = .ok (field_text i f t ++ NUL :: rest1) ∧
      (field_text i f t ++ NUL :: rest1).length = n ∧ NulFree (field_text i f t) := by
  obtain ⟨hi, hv⟩ := hf
  obtain ⟨r, rest1, e1, e2, e3, e4⟩ := make_csv_field_delim len n i f t rest ht hn hi
  rw [e1]
  have hnull : NulFree (if i ≠ 0 then t ++ [COMMA] else t) := by
    split
    · exact nulFree_append _ _ ht comma_nulFree
    · exact ht
  cases f with
  | FS_STRING ptr =>
    obtain ⟨hp, hc, hs⟩ := hv
    have hr : (enc_string ptr).length + 1 ≤ r.length := by
      simp only [List.length_append] at e2
      omega
    simp only [make_csv_value, strlen_append, e3]
    rw [if_neg (by omega)]
    refine ⟨r.drop ((enc_string ptr).length + 1), ?_, ?_, ?_⟩
    · have e5 : (if COMMA ∈ ptr then sprintf (t ++ r) t.length (QUOTE :: (ptr ++ [QUOTE]))
          else sprintf (t ++ r) t.length ptr) = sprintf (t ++ r) t.length (enc_string ptr) := by
        unfold enc_string
        split <;> rfl
      rw [e5, sprintf_append t r (enc_string ptr) hr]
      simp [field_text]
    · simp only [field_text, List.length_append, List.length_cons, List.length_drop] at e2 ⊢
      omega
    · exact nulFree_append _ _ ht (enc_string_nulFree ptr hp)
  | FS_UINT64 num =>
    obtain ⟨hc, hs⟩ := hv
    have hr : (dec64 num).length + 1 ≤ r.length := by
      simp only [List.length_append] at e2
      omega
    simp only [make_csv_value, strlen_append, e3]
    rw [if_neg (by omega)]
    refine ⟨r.drop ((dec64 num).length + 1), ?_, ?_, ?_⟩
    · rw [sprintf_append t r (dec64 num) hr]
      simp [field_text]
    · simp only [field_text, List.length_append, List.length_cons, List.length_drop] at e2 ⊢
      omega
    · exact nulFree_append _ _ ht (dec64_nulFree num)
  | FS_BINARY ptr =>
    obtain ⟨hc, hs⟩ := hv
    simp only [make_csv_value, strlen_append, e3]
    rw [if_neg (by omega)]
    cases ptr with
    | nil =>
      refine ⟨rest1, ?_, ?_, ?_⟩
      · simp only [hex_encode_str, field_text]
        rw [e4]
      · simp only [field_text]
        rw [← e4]
        exact e2
      · exact hnull
    | cons b bs =>
      have h2 := hs (by simp)
      have := hex_encode_str_ok bs b [] (t ++ r) (by omega)
      simp only [List.nil_append, List.length_nil] at this
      refine ⟨_, this, ?_, hex_nulFree _⟩
      simp only [field_text, List.length_append, List.length_cons, List.length_drop,
        hex_length] at e2 h2 ⊢
      omega
  | FS_NULL =>
    refine ⟨rest1, ?_, ?_, ?_⟩
    · simp only [make_csv_value, field_text]
      rw [e4]
    · simp only [field_text]
      rw [← e4]
      exact e2
    · exact hnull
  | FS_OTHER => exact absurd hv (by simp)

/-- The loop turns a block holding the text `t` into a block of the same size
holding `loop_text i fs t`. -/
theorem make_csv_loop_ok (len n : Nat) (fs : fieldset_t) : ∀ (i : Nat) (t rest : List Char),
    NulFree t → (t ++ NUL :: rest).length = n → Fits len n i fs t →
    ∃ rest1, make_csv_loop len i fs (t ++ NUL :: rest) = .ok (loop_text i fs t ++ NUL :: rest1) ∧
      (loop_text i fs t ++ NUL :: rest1).length = n ∧ NulFree (loop_text i fs t) := by
  induction fs with
  | nil =>
    intro i t rest ht hn _
    exact ⟨rest, rfl, hn, ht⟩
  | cons f fs ih =>
    intro i t rest ht hn hf
    obtain ⟨h1, h2⟩ := hf
    obtain ⟨rest1, e1, e2, e3⟩ := make_csv_field_ok len n i f t rest ht hn h1
    obtain ⟨rest2, e4, e5, e6⟩ := ih (i + 1) (field_text i f t) rest1 e3 e2 h2
    refine ⟨rest2, ?_, e5, e6⟩
    simp only [make_csv_loop, e1, loop_text]
    exact e4

/-- The function `make_csv_string` on a block of `n ≥ len ≥ 1` bytes: it returns, the block
keeps its size and holds the text `csv_text fs`. -/
theorem make_csv_string_ok (fs : fieldset_t) (out : List Char) (len : Nat)
    (h1 : 1 ≤ len) (h2 : len ≤ out.length) (hf : Fits len out.length 0 fs []) :
    ∃ rest1, make_csv_string fs out len = .ok (csv_text fs ++ NUL :: rest1) ∧
      (csv_text fs ++ NUL :: rest1).length = out.length ∧ NulFree (csv_text fs) := by
  unfold make_csv_string memset0
  rw [if_pos h2]
  obtain ⟨k, rfl⟩ : ∃ k, len = k + 1 := ⟨len - 1, by omega⟩
  have e : List.replicate (k + 1) NUL ++ List.drop (k + 1) out
      = [] ++ NUL :: (List.replicate k NUL ++ List.drop (k + 1) out) := by
    simp [List.replicate_succ]
  have hn : ([] ++ NUL :: (List.replicate k NUL ++ List.drop (k + 1) out)).length
      = out.length := by
    simp
    omega
  simp only [e]
  exact make_csv_loop_ok (k + 1) out.length fs 0 [] _ (by simp [NulFree]) hn hf

/-! ## Sizes: the estimate and the length of the text -/

theorem recognised_of_wf (fs : fieldset_t) (h : WellFormed fs) : Recognised fs := by
  intro f hf e
  have := h f hf
  rw [e] at this
  exact this

theorem guess_loop_eq (fs : fieldset_t) : ∀ acc : Nat, Recognised fs →
    guess_loop fs (acc % SIZE_T) = .ok ((acc + est_sum fs) % SIZE_T) := by
  induction fs with
  | nil => intro acc _; simp [guess_loop, est_sum]
  | cons f fs ih =>
    intro acc h
    have hfs : Recognised fs := fun g hg => h g (List.mem_cons_of_mem _ hg)
    have hf : f ≠ field_t.FS_OTHER := h f (List.mem_cons_self _ _)
    cases f with
    | FS_STRING ptr =>
      have e : ((acc % SIZE_T + ptr.length) % SIZE_T + 2) % SIZE_T
          = (acc + ptr.length + 2) % SIZE_T := by
        simp [Nat.add_mod]
      simp only [guess_loop, e, est_sum, field_est]
      rw [ih _ hfs]
      congr 2
      omega
    | FS_UINT64 num =>
      have e : (acc % SIZE_T + INT_STR_LEN) % SIZE_T = (acc + INT_STR_LEN) % SIZE_T := by
        simp [Nat.add_mod]
      simp only [guess_loop, e, est_sum, field_est]
      rw [ih _ hfs]
      congr 2
      omega
    | FS_BINARY ptr =>
      have e : (acc % SIZE_T + 2 * ptr.length % SIZE_T) % SIZE_T
          = (acc + 2 * ptr.length) % SIZE_T := by
        simp [Nat.add_mod]
      simp only [guess_loop, e, est_sum, field_est]
      rw [ih _ hfs]
      congr 2
      omega
    | FS_NULL =>
      simp only [guess_loop, est_sum, field_est]
      rw [ih _ hfs]
      congr 2
      omega
    | FS_OTHER => exact absurd rfl hf

/-- The estimate of a record of recognised kinds is `2 * est_sum fs + 256`
reduced modulo `SIZE_T`. -/
theorem guess_eq_of_recognised (fs : fieldset_t) (h : Recognised fs) :
    guess_csv_string_length fs = .ok ((2 * est_sum fs + 256) % SIZE_T) := by
  have := guess_loop_eq fs 0 h
  simp only [Nat.zero_mod, Nat.zero_add] at this
  simp only [guess_csv_string_length, this]
  congr 1
  have e : (est_sum fs % SIZE_T + est_sum fs % SIZE_T) % SIZE_T = (2 * est_sum fs) % SIZE_T := by
    rw [← Nat.add_mod, two_mul]
  rw [e, Nat.mod_add_mod]

theorem guess_eq (fs : fieldset_t) (h : WellFormed fs) :
    guess_csv_string_length fs = .ok ((2 * est_sum fs + 256) % SIZE_T) :=
  guess_eq_of_recognised fs (recognised_of_wf fs h)

theorem dec64_length (num : Nat) : (dec64 num).length ≤ INT_STR_LEN := by
  unfold dec64 Nat.toDigits INT_STR_LEN
  have h : num % 2 ^ 64 < 10 ^ 20 := lt_trans (Nat.mod_lt _ (by norm_num)) (by norm_num)
  exact Nat.toDigitsCore_length 10 (by decide) _ _ 20 h (by decide)

theorem enc_string_length (ptr : List Char) : (enc_string ptr).length ≤ ptr.length + 2 := by
  unfold enc_string
  split <;> simp

/-- One iteration lengthens the text by at most the field's estimate, plus
one for a delimiter when `i ≠ 0`. -/
theorem field_text_length (i : Nat) (f : field_t) (t : List Char) :
    (field_text i f t).length ≤ t.length + field_est f + delim i := by
  cases f with
  | FS_STRING ptr =>
    have := enc_string_length ptr
    simp only [field_text, field_est, List.length_append]
    omega
  | FS_UINT64 num =>
    have := dec64_length num
    simp only [field_text, field_est, List.length_append]
    omega
  | FS_BINARY ptr =>
    cases ptr with
    | nil =>
      simp only [field_text, field_est, delim]
      split <;> simp
    | cons b bs =>
      simp only [field_text, field_est, hex_length]
      omega
  | FS_NULL =>
    simp only [field_text, field_est, delim]
    split <;> simp
  | FS_OTHER =>
    simp only [field_text]
    omega

theorem delim_succ (i : Nat) : delim (i + 1) = 1 := by simp [delim]

theorem delim_le (i : Nat) : delim i ≤ 1 := by
  unfold delim
  split <;> omega

/-- A bound on the size of the block under which every iteration of the loop
fits. -/
theorem fits_of_bounds (len n : Nat) (fs : fieldset_t) : ∀ (i : Nat) (t : List Char),
    WellFormed fs → Checks len fs →
    t.length + est_sum fs + fs.length + delim i ≤ n → Fits len n i fs t := by
  induction fs with
  | nil => intro i t _ _ _; trivial
  | cons f fs ih =>
    intro i t hw hc hb
    have hwf : field_wf f := hw f (List.mem_cons_self _ _)
    have hcf : field_check len f := hc f (List.mem_cons_self _ _)
    have hw2 : WellFormed fs := fun g hg => hw g (List.mem_cons_of_mem _ hg)
    have hc2 : Checks len fs := fun g hg => hc g (List.mem_cons_of_mem _ hg)
    have h1 := field_text_length i f t
    have h3 := delim_le i
    simp only [est_sum, List.length_cons] at hb
    have hd : i ≠ 0 → delim i = 1 := fun h => by simp [delim, h]
    refine ⟨⟨fun h => by have := hd h; omega, ?_⟩, ih (i + 1) _ hw2 hc2 (by rw [delim_succ]; omega)⟩
    cases f with
    | FS_STRING ptr =>
      simp only [field_check] at hcf
      simp only [field_text, field_est, List.length_append] at h1
      have h4 := enc_string_length ptr
      simp only [field_est] at hb
      refine ⟨hwf, ?_, by omega⟩
      exact lt_of_le_of_lt (Nat.mod_le _ _) (by omega)
    | FS_UINT64 num =>
      simp only [field_check] at hcf
      have h4 := dec64_length num
      simp only [field_est] at hb
      refine ⟨?_, by omega⟩
      exact lt_of_le_of_lt (Nat.mod_le _ _) (by omega)
    | FS_BINARY ptr =>
      simp only [field_check] at hcf
      simp only [field_est] at hb
      refine ⟨?_, fun _ => by omega⟩
      refine lt_of_le_of_lt (Nat.mod_le _ _) ?_
      have := Nat.mod_le (2 * ptr.length) SIZE_T
      omega
    | FS_NULL => trivial
    | FS_OTHER => exact absurd hwf (by simp [field_wf])

/-- The function `make_csv_string` on a block that is large enough, for a record that
passes the capacity checks: it returns, the block keeps its size and the C
string in it is `csv_text fs`. -/
theorem make_csv_string_text (fs : fieldset_t) (out : List Char) (len : Nat)
    (hw : WellFormed fs) (hc : Checks len fs) (h1 : 1 ≤ len) (h2 : len ≤ out.length)
    (hb : est_sum fs + fs.length ≤ out.length) :
    ∃ out1, make_csv_string fs out len = .ok out1 ∧ out1.length = out.length ∧
      cstr out1 = csv_text fs ∧ NUL ∈ out1 := by
  have hf : Fits len out.length 0 fs [] :=
    fits_of_bounds len out.length fs 0 [] hw hc (by simpa [delim] using hb)
  obtain ⟨rest1, e1, e2, e3⟩ := make_csv_string_ok fs out len h1 h2 hf
  exact ⟨_, e1, e2, cstr_text _ _ e3, by simp⟩

theorem take_set_self {α : Type} (l : List α) (k : Nat) (a : α) :
    (l.set k a).take k = l.take k := by
  apply List.ext_getElem?
  intro i
  by_cases h : i < k
  · rw [List.getElem?_take_of_lt h, List.getElem?_take_of_lt h,
      List.getElem?_set_ne (by omega)]
  · rw [List.getElem?_take_eq_none (by omega), List.getElem?_take_eq_none (by omega)]

theorem mem_take_index {α : Type} (l : List α) (k : Nat) (q : α) (h : q ∈ l.take k) :
    ∃ i, i < k ∧ l[i]? = some q := by
  obtain ⟨i, hi⟩ := List.mem_iff_getElem?.1 h
  by_cases hik : i < k
  · exact ⟨i, hik, by rwa [List.getElem?_take_of_lt hik] at hi⟩
  · rw [List.getElem?_take_eq_none (by omega)] at hi
    cases hi

theorem read_string_congr (h1 h2 : Heap) (p : Ptr) (h : h1[p]? = h2[p]?) :
    read_string h1 p = read_string h2 p := by
  simp only [read_string, load, h]

theorem read_each_congr (h1 h2 : Heap) (ps : List Ptr) (h : ∀ p ∈ ps, h1[p]? = h2[p]?) :
    read_each h1 ps = read_each h2 ps := by
  induction ps with
  | nil => rfl
  | cons p ps ih =>
    simp only [read_each]
    rw [read_string_congr h1 h2 p (h p (List.mem_cons_self _ _)),
      ih (fun q hq => h q (List.mem_cons_of_mem _ hq))]

theorem read_each_append (heap : Heap) (ps : List Ptr) (p : Ptr) (ts : List (List Char))
    (t : List Char) (h1 : read_each heap ps = .ok ts) (h2 : read_string heap p = .ok t) :
    read_each heap (ps ++ [p]) = .ok (ts ++ [t]) := by
  induction ps generalizing ts with
  | nil =>
    simp only [read_each] at h1
    cases h1
    simp [read_each, h2]
  | cons q ps ih =>
    simp only [read_each, List.cons_append] at h1 ⊢
    cases hq : read_string heap q with
    | error e => simp [hq] at h1
    | ok tq =>
      cases hps : read_each heap ps with
      | error e => simp [hq, hps] at h1
      | ok tps =>
        simp only [hq, hps] at h1
        cases h1
        simp [ih tps hps]

theorem read_each_length (heap : Heap) (ps : List Ptr) (ts : List (List Char))
    (h : read_each heap ps = .ok ts) : ts.length = ps.length := by
  induction ps generalizing ts with
  | nil =>
    simp only [read_each] at h
    cases h
    rfl
  | cons q ps ih =>
    simp only [read_each] at h
    cases hq : read_string heap q with
    | error e => simp [hq] at h
    | ok tq =>
      cases hps : read_each heap ps with
      | error e => simp [hq, hps] at h
      | ok tps =>
        simp only [hq, hps] at h
        cases h
        simp [ih tps hps]

theorem at_index_ok {α : Type} (a : List α) (i : Int) (x : α) (h0 : 0 ≤ i)
    (h1 : i < BUFFER_SIZE) (hx : a[i.toNat]? = some x) : at_index a i = .ok x := by
  simp [at_index, h0, h1, hx]

theorem at_index_inv {α : Type} (a : List α) (i : Int) (x : α) (h : at_index a i = .ok x) :
    0 ≤ i ∧ i < BUFFER_SIZE ∧ a[i.toNat]? = some x := by
  unfold at_index at h
  split at h
  · rename_i hi
    cases hx : a[i.toNat]? with
    | none => simp [hx] at h
    | some y =>
      simp only [hx] at h
      cases h
      exact ⟨hi.1, hi.2, rfl⟩
  · cases h

/-! ## The initialised state -/

theorem pending_zero (s : State) (h : s.buffer_fill = 0) : Pending s [] := by
  simp [Pending, read_strings, h, read_each]

theorem init_loop_spec (env : Env) (s0 : State) (h0 : s0.heap.length = 1)
    (hb : s0.buffer.length = BUFFER_SIZE) (he : s0.buffer_export.length = BUFFER_SIZE) :
    ∀ k, k ≤ BUFFER_SIZE →
      (init_loop env k s0).heap.length = k + 1 ∧
      (init_loop env k s0).buffer.length = BUFFER_SIZE ∧
      (init_loop env k s0).buffer_export.length = BUFFER_SIZE ∧
      (init_loop env k s0).buffer_fill = s0.buffer_fill ∧
      (init_loop env k s0).log = s0.log ∧
      ∀ i, i < k →
        (init_loop env k s0).buffer[i]? = some { len := DEFAULT_STR_LEN, str := i + 1 } ∧
        (init_loop env k s0).buffer_export[i]? = some (i + 1) ∧
        ∃ b, (init_loop env k s0).heap[i + 1]? = some (some b) ∧ b.length = DEFAULT_STR_LEN := by
  intro k
  induction k with
  | zero =>
    intro _
    exact ⟨h0, hb, he, rfl, rfl, fun i hi => absurd hi (by omega)⟩
  | succ k ih =>
    intro hk
    obtain ⟨e1, e2, e3, e4, e5, e6⟩ := ih (by omega)
    simp only [init_loop, xmalloc]
    refine ⟨by simp [e1], by simp [e2], by simp [e3], e4, e5, ?_⟩
    intro i hi
    by_cases hik : i = k
    · subst hik
      refine ⟨?_, ?_, ?_⟩
      · rw [List.getElem?_set_self (by omega), e1]
      · rw [List.getElem?_set_self (by omega), e1]
      · refine ⟨(List.range DEFAULT_STR_LEN).map
          (env.junk (init_loop env i s0).heap.length), ?_, ?_⟩
        · rw [← e1]
          exact List.getElem?_concat_length _ _
        · simp
    · obtain ⟨f1, f2, b, f3, f4⟩ := e6 i (by omega)
      refine ⟨?_, ?_, b, ?_, f4⟩
      · rw [List.getElem?_set_ne (by omega)]
        exact f1
      · rw [List.getElem?_set_ne (by omega)]
        exact f2
      · rw [List.getElem?_append_left (by omega)]
        exact f3

/-- A state laid out as the loop of `redisstrmodule_init` leaves it satisfies
the pool invariant, with capacity `DEFAULT_STR_LEN` in every slot. -/
theorem inv_of_layout (s : State) (e2 : s.buffer.length = BUFFER_SIZE)
    (e3 : s.buffer_export.length = BUFFER_SIZE)
    (e6 : ∀ i, i < BUFFER_SIZE →
      s.buffer[i]? = some { len := DEFAULT_STR_LEN, str := i + 1 } ∧
      s.buffer_export[i]? = some (i + 1) ∧
      ∃ b, s.heap[i + 1]? = some (some b) ∧ b.length = DEFAULT_STR_LEN) :
    Inv s ∧ AllLen s DEFAULT_STR_LEN := by
  have key : ∀ (i : Nat) (v : varchar_t), s.buffer[i]? = some v →
      i < BUFFER_SIZE ∧ v = { len := DEFAULT_STR_LEN, str := i + 1 } := by
    intro i v hv
    have hi : i < BUFFER_SIZE := by
      rw [← e2]
      exact (List.getElem?_eq_some_iff.1 hv).1
    rw [(e6 i hi).1] at hv
    exact ⟨hi, (Option.some.inj hv).symm⟩
  refine ⟨⟨e2, e3, ?_, ?_, ?_⟩, ?_⟩
  · intro i v hv
    obtain ⟨hi, rfl⟩ := key i v hv
    exact (e6 i hi).2.1
  · intro i v hv
    obtain ⟨hi, rfl⟩ := key i v hv
    obtain ⟨b, hb1, hb2⟩ := (e6 i hi).2.2
    exact ⟨b, hb1, by simp [hb2], by simp [DEFAULT_STR_LEN]⟩
  · intro i j v w hv hw hvw
    obtain ⟨_, rfl⟩ := key i v hv
    obtain ⟨_, rfl⟩ := key j w hw
    simpa using hvw
  · intro v hv
    obtain ⟨i, hi⟩ := List.mem_iff_getElem?.1 hv
    obtain ⟨_, rfl⟩ := key i v hi
    rfl

theorem inv_congr (s s1 : State) (h1 : s1.heap = s.heap) (h2 : s1.buffer = s.buffer)
    (h3 : s1.buffer_export = s.buffer_export) (hI : Inv s) : Inv s1 := by
  refine ⟨h2 ▸ hI.buffer_length, h3 ▸ hI.export_length, ?_, ?_, ?_⟩
  · rw [h2, h3]
    exact hI.export_eq
  · rw [h1, h2]
    exact hI.live
  · rw [h2]
    exact hI.distinct

/-- The state that `redisstrmodule_init` returns, written out. -/
theorem init_unfold (env : Env) (args : Option String) :
    (redisstrmodule_init env args).2 =
      { init_loop env BUFFER_SIZE static_init with
        queue_name := (match args with
          | some a => env.list_name a
          | none => "zmap")
        log := (init_loop env BUFFER_SIZE static_init).log ++ [SinkCall.redis_init args] } := by
  unfold redisstrmodule_init
  exact rfl

/-- The state that `redisstrmodule_init` returns: the pool invariant holds,
`buffer_fill` is 0, every slot has capacity `DEFAULT_STR_LEN`, nothing is
waiting for a flush and the only call made is `redis_init`. -/
theorem init_state (env : Env) (args : Option String) :
    Inv (redisstrmodule_init env args).2 ∧
    (redisstrmodule_init env args).2.buffer_fill = 0 ∧
    AllLen (redisstrmodule_init env args).2 DEFAULT_STR_LEN ∧
    Pending (redisstrmodule_init env args).2 [] ∧
    (redisstrmodule_init env args).2.log = [SinkCall.redis_init args] := by
  have h := init_loop_spec env static_init rfl (by simp [static_init])
    (by simp [static_init]) BUFFER_SIZE (le_refl _)
  have hF : static_init.buffer_fill = 0 := rfl
  have hG : static_init.log = [] := rfl
  rw [hF, hG] at h
  rw [init_unfold]
  generalize init_loop env BUFFER_SIZE static_init = s1 at h ⊢
  obtain ⟨_, e2, e3, e4, e5, e6⟩ := h
  obtain ⟨hI, hL⟩ := inv_of_layout s1 e2 e3 e6
  refine ⟨inv_congr s1 _ rfl rfl rfl hI, e4, hL, pending_zero _ e4, ?_⟩
  show s1.log ++ [SinkCall.redis_init args] = [SinkCall.redis_init args]
  rw [e5]
  rfl

/-! ## One call of `redisstrmodule_process` -/

theorem pending_inv (s : State) (ts : List (List Char)) (hP : Pending s ts) :
    0 ≤ s.buffer_fill ∧ s.buffer_fill ≤ BUFFER_SIZE ∧
      s.buffer_fill.toNat ≤ s.buffer_export.length ∧
      read_each s.heap (s.buffer_export.take s.buffer_fill.toNat) = .ok ts := by
  unfold Pending read_strings at hP
  split at hP
  · rename_i h
    exact ⟨h.1, h.2.1, h.2.2, hP⟩
  · cases hP

/-- The pointers of the slots before slot `k` are live and differ from the
pointer of slot `k`. -/
theorem export_ptr (s : State) (hI : Inv s) (k : Nat) (v : varchar_t)
    (hk : s.buffer[k]? = some v) (q : Ptr) (hq : q ∈ s.buffer_export.take k) :
    q ≠ v.str ∧ ∃ b, s.heap[q]? = some (some b) := by
  obtain ⟨i, hik, hi⟩ := mem_take_index _ _ _ hq
  have hi2 : i < s.buffer.length := by
    rw [hI.buffer_length, ← hI.export_length]
    exact (List.getElem?_eq_some_iff.1 hi).1
  have hw : s.buffer[i]? = some s.buffer[i] := List.getElem?_eq_getElem hi2
  have := hI.export_eq i _ hw
  rw [hi] at this
  have hq2 : q = s.buffer[i].str := Option.some.inj this
  constructor
  · intro e
    have := hI.distinct i k _ v hw hk (by rw [← hq2, e])
    omega
  · obtain ⟨b, hb, _⟩ := hI.live i _ hw
    exact ⟨b, by rw [hq2]; exact hb⟩

/-- Source line 155 on a pool that satisfies the invariant, for a record that
passes the capacity checks and a block large enough: the slot's block then
holds `csv_text fs`, and nothing else changes. -/
theorem render_slot_spec (s : State) (fs : fieldset_t) (ts : List (List Char))
    (v : varchar_t) (b : List Char) (hI : Inv s)
    (hv : at_index s.buffer s.buffer_fill = .ok v)
    (hb : s.heap[v.str]? = some (some b)) (hw : WellFormed fs) (hc : Checks v.len fs)
    (hsz : est_sum fs + fs.length ≤ b.length) (hP : Pending s ts) :
    ∃ s2, render_slot s fs = .ok s2 ∧ Inv s2 ∧ s2.buffer_fill = s.buffer_fill ∧
      s2.log = s.log ∧ s2.queue_name = s.queue_name ∧ s2.buffer = s.buffer ∧
      Pending { s2 with buffer_fill := s2.buffer_fill + 1 } (ts ++ [csv_text fs]) := by
  obtain ⟨h0, hN, hk⟩ := at_index_inv _ _ _ hv
  obtain ⟨b1, hb1, hlen, hone⟩ := hI.live _ v hk
  rw [hb] at hb1
  cases Option.some.inj (Option.some.inj hb1)
  obtain ⟨out1, e1, e2, e3, e4⟩ := make_csv_string_text fs b v.len hw hc hone hlen hsz
  have hp : v.str < s.heap.length := (List.getElem?_eq_some_iff.1 hb).1
  obtain ⟨_, _, _, hts⟩ := pending_inv s ts hP
  refine ⟨{ s with heap := s.heap.set v.str (some out1) }, ?_, ?_, rfl, rfl, rfl, rfl, ?_⟩
  · simp only [render_slot, hv, load, hb, e1]
  · refine ⟨hI.buffer_length, hI.export_length, hI.export_eq, ?_, hI.distinct⟩
    intro i w hw
    obtain ⟨b2, hb2, hl2, ho2⟩ := hI.live i w hw
    by_cases hpw : v.str = w.str
    · have hik := hI.distinct _ _ _ _ hw hk hpw.symm
      subst hik
      rw [hk] at hw
      cases Option.some.inj hw
      exact ⟨out1, by simp only [List.getElem?_set_self hp], by omega, hone⟩
    · exact ⟨b2, by simp only [List.getElem?_set_ne hpw]; exact hb2, hl2, ho2⟩
  · have hk1 : (s.buffer_fill + 1).toNat = s.buffer_fill.toNat + 1 := by omega
    have hex : s.buffer_export[s.buffer_fill.toNat]? = some v.str := hI.export_eq _ v hk
    have hel := hI.export_length
    simp only [Pending, read_strings]
    rw [if_pos ⟨by omega, by omega, by omega⟩, hk1, List.take_succ, hex]
    apply read_each_append
    · rw [← hts]
      apply read_each_congr
      intro q hq
      have := (export_ptr s hI _ v hk q hq).1
      simp only [List.getElem?_set_ne (Ne.symm this)]
    · simp only [read_string, load, List.getElem?_set_self hp, e4, if_true, e3]

theorem heap_regrow_get (heap : Heap) (p q : Ptr) (x : Option (List Char))
    (hq : q < heap.length) (hne : q ≠ p) : ((heap.set p none) ++ [x])[q]? = heap[q]? := by
  rw [List.getElem?_append_left (by simpa using hq), List.getElem?_set_ne (Ne.symm hne)]

/-- Source lines 150-154 on a pool that satisfies the invariant: afterwards
the block of slot `buffer_fill` has at least `reqd_space` bytes, the recorded
capacities are the same as before and the strings of the earlier slots are
untouched. -/
theorem grow_spec (env : Env) (s : State) (g : Nat) (ts : List (List Char)) (v : varchar_t)
    (hI : Inv s) (hv : at_index s.buffer s.buffer_fill = .ok v) (hP : Pending s ts) :
    ∃ s1 v1 b, (if g > v.len then regrow env s g else .ok s) = .ok s1 ∧ Inv s1 ∧
      s1.buffer_fill = s.buffer_fill ∧ s1.log = s.log ∧ s1.queue_name = s.queue_name ∧
      s1.buffer.map varchar_t.len = s.buffer.map varchar_t.len ∧ Pending s1 ts ∧
      at_index s1.buffer s1.buffer_fill = .ok v1 ∧ v1.len = v.len ∧
      s1.heap[v1.str]? = some (some b) ∧ g ≤ b.length := by
  obtain ⟨h0, hN, hk⟩ := at_index_inv _ _ _ hv
  obtain ⟨b0, hb0, hlen, hone⟩ := hI.live _ v hk
  by_cases hg : g > v.len
  · rw [if_pos hg]
    have hp : v.str < s.heap.length := (List.getElem?_eq_some_iff.1 hb0).1
    have hbl := hI.buffer_length
    have hel := hI.export_length
    have hex : s.buffer_export[s.buffer_fill.toNat]? = some v.str := hI.export_eq _ v hk
    have hkN : s.buffer_fill.toNat < BUFFER_SIZE := by omega
    obtain ⟨_, _, _, hts⟩ := pending_inv s ts hP
    have hve : at_index s.buffer_export s.buffer_fill = .ok v.str := at_index_ok _ _ _ h0 hN hex
    refine ⟨{ s with
        heap := (s.heap.set v.str none) ++
          [some ((List.range g).map (env.junk (s.heap.set v.str none).length))]
        buffer := s.buffer.set s.buffer_fill.toNat { v with str := (s.heap.set v.str none).length }
        buffer_export := s.buffer_export.set s.buffer_fill.toNat (s.heap.set v.str none).length },
      { v with str := (s.heap.set v.str none).length },
      (List.range g).map (env.junk (s.heap.set v.str none).length),
      ?_, ?_, rfl, rfl, rfl, ?_, ?_, ?_, rfl, ?_, by simp⟩
    · simp only [regrow, hv, free, hb0, xmalloc, hve]
    · refine ⟨by simp [hbl], by simp [hel], ?_, ?_, ?_⟩
      · intro i w hw
        by_cases hik : s.buffer_fill.toNat = i
        · subst hik
          simp only [List.getElem?_set_self (by omega : s.buffer_fill.toNat < s.buffer.length)] at hw
          cases Option.some.inj hw
          simp only [List.getElem?_set_self
            (by omega : s.buffer_fill.toNat < s.buffer_export.length)]
        · simp only [List.getElem?_set_ne hik] at hw ⊢
          exact hI.export_eq i w hw
      · intro i w hw
        by_cases hik : s.buffer_fill.toNat = i
        · subst hik
          simp only [List.getElem?_set_self (by omega : s.buffer_fill.toNat < s.buffer.length)] at hw
          cases Option.some.inj hw
          refine ⟨(List.range g).map (env.junk (s.heap.set v.str none).length), ?_, ?_, hone⟩
          · exact List.getElem?_concat_length _ _
          · simp
            omega
        · simp only [List.getElem?_set_ne hik] at hw
          obtain ⟨b2, hb2, hl2, ho2⟩ := hI.live i w hw
          have hne : w.str ≠ v.str := fun e => hik (hI.distinct _ _ _ _ hk hw e.symm)
          have hlt : w.str < s.heap.length := (List.getElem?_eq_some_iff.1 hb2).1
          exact ⟨b2, by rw [heap_regrow_get _ _ _ _ hlt hne]; exact hb2, hl2, ho2⟩
      · intro i j w1 w2 h1 h2 e
        by_cases hik : s.buffer_fill.toNat = i
        · by_cases hjk : s.buffer_fill.toNat = j
          · omega
          · subst hik
            simp only [List.getElem?_set_self
              (by omega : s.buffer_fill.toNat < s.buffer.length)] at h1
            simp only [List.getElem?_set_ne hjk] at h2
            cases Option.some.inj h1
            obtain ⟨b2, hb2, _⟩ := hI.live j w2 h2
            have hlt : w2.str < s.heap.length := (List.getElem?_eq_some_iff.1 hb2).1
            have e1 : s.heap.length = w2.str := by simpa using e
            rw [← e1] at hlt
            exact absurd hlt (lt_irrefl _)
        · by_cases hjk : s.buffer_fill.toNat = j
          · subst hjk
            simp only [List.getElem?_set_self
              (by omega : s.buffer_fill.toNat < s.buffer.length)] at h2
            simp only [List.getElem?_set_ne hik] at h1
            cases Option.some.inj h2
            obtain ⟨b2, hb2, _⟩ := hI.live i w1 h1
            have hlt : w1.str < s.heap.length := (List.getElem?_eq_some_iff.1 hb2).1
            have e1 : w1.str = s.heap.length := by simpa using e
            rw [e1] at hlt
            exact absurd hlt (lt_irrefl _)
          · simp only [List.getElem?_set_ne hik] at h1
            simp only [List.getElem?_set_ne hjk] at h2
            exact hI.distinct i j w1 w2 h1 h2 e
    · apply List.ext_getElem?
      intro i
      simp only [List.getElem?_map]
      by_cases hik : s.buffer_fill.toNat = i
      · subst hik
        simp only [List.getElem?_set_self (by omega : s.buffer_fill.toNat < s.buffer.length), hk,
          Option.map_some']
      · simp only [List.getElem?_set_ne hik]
    · simp only [Pending, read_strings]
      rw [if_pos ⟨by omega, by omega, by simp; omega⟩, take_set_self, ← hts]
      apply read_each_congr
      intro q hq
      obtain ⟨hne, b2, hb2⟩ := export_ptr s hI _ v hk q hq
      exact heap_regrow_get _ _ _ _ (List.getElem?_eq_some_iff.1 hb2).1 hne
    · apply at_index_ok _ _ _ h0 hN
      simp only [List.getElem?_set_self (by omega : s.buffer_fill.toNat < s.buffer.length)]
    · exact List.getElem?_concat_length _ _
  · rw [if_neg hg]
    exact ⟨s, v, b0, rfl, hI, rfl, rfl, rfl, rfl, hP, hv, rfl, hb0, by omega⟩

/-- Source lines 147-157 on a pool that satisfies the invariant, for a record
that the slot accepts: the call gets to the test of the fill count, with the
rendered text added to the strings that wait for a flush, `buffer_fill`
incremented and every recorded capacity unchanged. -/
theorem store_record_spec (env : Env) (s : State) (fs : fieldset_t) (ts : List (List Char))
    (v : varchar_t) (hI : Inv s) (hv : at_index s.buffer s.buffer_fill = .ok v)
    (hA : Accepts v.len fs) (hP : Pending s ts) :
    ∃ s3, store_record env s fs = .ok s3 ∧ Inv s3 ∧ s3.buffer_fill = s.buffer_fill + 1 ∧
      s3.log = s.log ∧ s3.queue_name = s.queue_name ∧
      s3.buffer.map varchar_t.len = s.buffer.map varchar_t.len ∧
      Pending s3 (ts ++ [csv_text fs]) := by
  obtain ⟨hw, hc, hn, hwrap⟩ := hA
  have hg : guess_csv_string_length fs = .ok (2 * est_sum fs + 256) := by
    rw [guess_eq fs hw, Nat.mod_eq_of_lt hwrap]
  obtain ⟨s1, v1, b, e1, i1, f1, l1, q1, m1, p1, a1, n1, hb, hgb⟩ :=
    grow_spec env s (2 * est_sum fs + 256) ts v hI hv hP
  obtain ⟨s2, e2, i2, f2, l2, q2, m2, p2⟩ :=
    render_slot_spec s1 fs ts v1 b i1 a1 hb hw (by rw [n1]; exact hc) (by omega) p1
  refine ⟨{ s2 with buffer_fill := s2.buffer_fill + 1 }, ?_,
    ⟨i2.buffer_length, i2.export_length, i2.export_eq, i2.live, i2.distinct⟩, ?_, ?_, ?_, ?_, p2⟩
  · simp only [store_record, hg, hv, e1, e2]
  · show s2.buffer_fill + 1 = s.buffer_fill + 1
    rw [f2, f1]
  · exact l2.trans l1
  · exact q2.trans q1
  · show s2.buffer.map varchar_t.len = s.buffer.map varchar_t.len
    rw [m2, m1]

/-- The function `redisstrmodule_process` is `store_record` followed by the test of the
fill count. -/
theorem process_eq (env : Env) (s : State) (fs : fieldset_t) :
    redisstrmodule_process env s fs =
      match store_record env s fs with
      | .ok s3 =>
          if s3.buffer_fill = (BUFFER_SIZE : Int) then
            match redisstrmodule_flush env s3 with
            | .ok (rc, s4) =>
                if rc ≠ 0 then .ok (EXIT_FAILURE, s4) else .ok (EXIT_SUCCESS, s4)
            | .error e => .error e
          else .ok (EXIT_SUCCESS, s3)
      | .error e => .error e := by
  unfold redisstrmodule_process store_record
  cases guess_csv_string_length fs with
  | error e => rfl
  | ok g =>
    simp only
    cases at_index s.buffer s.buffer_fill with
    | error e => rfl
    | ok v =>
      simp only
      cases (if g > v.len then regrow env s g else .ok s) with
      | error e => rfl
      | ok s1 =>
        simp only
        cases render_slot s1 fs with
        | error e => rfl
        | ok s2 => rfl

/-- The function `redisstrmodule_flush` when the strings that wait are `ts`: one call of
`redis_lpush_strings` with the queue name and `ts`; its result decides the
value returned and whether `buffer_fill` is reset. -/
theorem flush_spec (env : Env) (s : State) (ts : List (List Char)) (hP : Pending s ts) :
    redisstrmodule_flush env s =
      if env.sink (s.log ++ [SinkCall.redis_lpush_strings s.queue_name ts]) ≠ 0 then
        .ok (EXIT_FAILURE,
          { s with log := s.log ++ [SinkCall.redis_lpush_strings s.queue_name ts] })
      else
        .ok (EXIT_SUCCESS,
          { s with log := s.log ++ [SinkCall.redis_lpush_strings s.queue_name ts]
                   buffer_fill := 0 }) := by
  unfold Pending at hP
  simp only [redisstrmodule_flush, hP]

theorem pending_length (s : State) (ts : List (List Char)) (hP : Pending s ts) :
    (ts.length : Int) = s.buffer_fill := by
  obtain ⟨h0, h1, h2, h3⟩ := pending_inv s ts hP
  have := read_each_length _ _ _ h3
  simp only [List.length_take] at this
  omega


theorem allLen_of_map (s s1 : State) (len : Nat)
    (h : s1.buffer.map varchar_t.len = s.buffer.map varchar_t.len) (hL : AllLen s len) :
    AllLen s1 len := by
  intro v hv
  have h1 : v.len ∈ s1.buffer.map varchar_t.len := List.mem_map_of_mem _ hv
  rw [h] at h1
  obtain ⟨w, hw, e⟩ := List.mem_map.1 h1
  rw [← e]
  exact hL w hw

/-- The slot that `redisstrmodule_process` is about to fill. -/
theorem slot_at_fill (s : State) (len : Nat) (hI : Inv s) (hL : AllLen s len)
    (h0 : 0 ≤ s.buffer_fill) (hN : s.buffer_fill < BUFFER_SIZE) :
    ∃ v, at_index s.buffer s.buffer_fill = .ok v ∧ v.len = len := by
  have hk : s.buffer_fill.toNat < s.buffer.length := by
    rw [hI.buffer_length]
    omega
  refine ⟨s.buffer[s.buffer_fill.toNat], at_index_ok _ _ _ h0 hN (List.getElem?_eq_getElem hk),
    hL _ (List.getElem_mem _)⟩

/-- One call of `redisstrmodule_process` in a state that satisfies the pool
invariant, with `buffer_fill < BUFFER_SIZE`, for a record that the slot
accepts.  The call returns.  Below the last slot it makes no call to the sink
and returns success; on the last slot it makes one call of
`redis_lpush_strings` with all the strings, and the sink's answer decides the
value returned and whether `buffer_fill` is reset. -/
theorem process_spec (env : Env) (s : State) (fs : fieldset_t) (ts : List (List Char))
    (len : Nat) (hI : Inv s) (hL : AllLen s len) (hN : s.buffer_fill < BUFFER_SIZE)
    (hA : Accepts len fs) (hP : Pending s ts) :
    ∃ rc s1, redisstrmodule_process env s fs = .ok (rc, s1) ∧ Inv s1 ∧ AllLen s1 len ∧
      s1.queue_name = s.queue_name ∧
      s1.buffer.map varchar_t.len = s.buffer.map varchar_t.len ∧
      (s.buffer_fill + 1 ≠ BUFFER_SIZE → rc = EXIT_SUCCESS ∧
        s1.buffer_fill = s.buffer_fill + 1 ∧ s1.log = s.log ∧
        Pending s1 (ts ++ [csv_text fs])) ∧
      (s.buffer_fill + 1 = BUFFER_SIZE →
        s1.log = s.log ++ [SinkCall.redis_lpush_strings s.queue_name (ts ++ [csv_text fs])] ∧
        (env.sink s1.log = 0 → rc = EXIT_SUCCESS ∧ s1.buffer_fill = 0 ∧ Pending s1 []) ∧
        (env.sink s1.log ≠ 0 → rc = EXIT_FAILURE ∧ s1.buffer_fill = BUFFER_SIZE ∧
          Pending s1 (ts ++ [csv_text fs]))) := by
  obtain ⟨h0, _, _, _⟩ := pending_inv s ts hP
  obtain ⟨v, hv, hvl⟩ := slot_at_fill s len hI hL h0 hN
  obtain ⟨s3, e3, i3, f3, l3, q3, m3, p3⟩ :=
    store_record_spec env s fs ts v hI hv (by rw [hvl]; exact hA) hP
  have hL3 : AllLen s3 len := allLen_of_map s s3 len m3 hL
  rw [process_eq, e3]
  simp only
  by_cases hfull : s3.buffer_fill = (BUFFER_SIZE : Int)
  · rw [if_pos hfull, flush_spec env s3 _ p3]
    have hfull2 : s.buffer_fill + 1 = BUFFER_SIZE := by rw [← f3]; exact hfull
    by_cases hs : env.sink (s3.log ++
        [SinkCall.redis_lpush_strings s3.queue_name (ts ++ [csv_text fs])]) = 0
    · rw [if_neg (by simpa using hs)]
      simp only
      rw [if_neg (by simp [EXIT_SUCCESS])]
      refine ⟨_, _, rfl, ⟨i3.buffer_length, i3.export_length, i3.export_eq, i3.live,
        i3.distinct⟩, hL3, q3, m3, fun h => absurd hfull2 h, fun _ => ⟨?_, ?_, ?_⟩⟩
      · simp only [l3, q3]
      · intro _
        exact ⟨rfl, rfl, pending_zero _ rfl⟩
      · intro h
        simp only at h
        exact absurd hs h
    · rw [if_pos hs]
      simp only
      rw [if_pos (by simp [EXIT_FAILURE])]
      refine ⟨_, _, rfl, ⟨i3.buffer_length, i3.export_length, i3.export_eq, i3.live,
        i3.distinct⟩, hL3, q3, m3, fun h => absurd hfull2 h, fun _ => ⟨?_, ?_, ?_⟩⟩
      · simp only [l3, q3]
      · intro h
        simp only at h
        exact absurd h hs
      · intro _
        exact ⟨rfl, hfull, p3⟩
  · rw [if_neg hfull]
    have hnf : s.buffer_fill + 1 ≠ BUFFER_SIZE := by rw [← f3]; exact hfull
    exact ⟨_, _, rfl, i3, hL3, q3, m3, fun _ => ⟨rfl, f3, l3, p3⟩, fun h => absurd h hnf⟩

/-! ## Successive calls of `redisstrmodule_process` -/

theorem process_all_append (env : Env) (rs1 rs2 : List fieldset_t) : ∀ s : State,
    process_all env s (rs1 ++ rs2) =
      match process_all env s rs1 with
      | .ok (rcs1, s1) =>
          match process_all env s1 rs2 with
          | .ok (rcs2, s2) => .ok (rcs1 ++ rcs2, s2)
          | .error e => .error e
      | .error e => .error e := by
  induction rs1 with
  | nil =>
    intro s
    simp only [List.nil_append, process_all]
    cases process_all env s rs2 with
    | error e => rfl
    | ok r => rfl
  | cons fs rs1 ih =>
    intro s
    simp only [List.cons_append, process_all]
    cases redisstrmodule_process env s fs with
    | error e => rfl
    | ok r =>
      obtain ⟨rc, s1⟩ := r
      simp only [List.append_eq]
      rw [ih s1]
      cases process_all env s1 rs1 with
      | error e => rfl
      | ok r1 =>
        obtain ⟨rcs1, s2⟩ := r1
        simp only
        cases process_all env s2 rs2 with
        | error e => rfl
        | ok r2 => rfl

/-- Calls of `redisstrmodule_process` that do not reach the last slot: they
all return success, make no call to the sink, and add their texts, in order,
to the strings that wait for a flush. -/
theorem process_all_below (env : Env) (len : Nat) (rs : List fieldset_t) :
    ∀ (s : State) (ts : List (List Char)), Inv s → AllLen s len → Pending s ts →
    (∀ fs ∈ rs, Accepts len fs) → s.buffer_fill + rs.length < BUFFER_SIZE →
    ∃ rcs s1, process_all env s rs = .ok (rcs, s1) ∧ Inv s1 ∧ AllLen s1 len ∧
      Pending s1 (ts ++ rs.map csv_text) ∧ s1.buffer_fill = s.buffer_fill + rs.length ∧
      s1.log = s.log ∧ s1.queue_name = s.queue_name ∧
      s1.buffer.map varchar_t.len = s.buffer.map varchar_t.len ∧
      rcs = List.replicate rs.length EXIT_SUCCESS := by
  induction rs with
  | nil =>
    intro s ts hI hL hP _ _
    exact ⟨[], s, rfl, hI, hL, by simpa using hP, by simp, rfl, rfl, rfl, rfl⟩
  | cons fs rs ih =>
    intro s ts hI hL hP hA hlt
    simp only [List.length_cons, Nat.cast_add, Nat.cast_one] at hlt
    obtain ⟨rc, s1, e1, i1, l1, q1, m1, hbelow, _⟩ :=
      process_spec env s fs ts len hI hL (by omega) (hA fs (List.mem_cons_self _ _)) hP
    obtain ⟨hrc, f1, g1, p1⟩ := hbelow (by omega)
    obtain ⟨rcs, s2, e2, i2, l2, p2, f2, g2, q2, m2, hr⟩ :=
      ih s1 (ts ++ [csv_text fs]) i1 l1 p1
        (fun g hg => hA g (List.mem_cons_of_mem _ hg)) (by rw [f1]; omega)
    refine ⟨rc :: rcs, s2, ?_, i2, l2, ?_, ?_, g2.trans g1, q2.trans q1, m2.trans m1, ?_⟩
    · simp only [process_all, e1, e2]
    · simpa using p2
    · rw [f2, f1]
      simp only [List.length_cons, Nat.cast_add, Nat.cast_one]
      omega
    · rw [hrc, hr]
      rfl

/-- The `BUFFER_SIZE` calls of `redisstrmodule_process` from a state with
`buffer_fill = 0`: the last call, and only it, calls `redis_lpush_strings`,
once, with the texts of all the records in order; the sink's answer decides
the last value returned and whether `buffer_fill` is reset. -/
theorem process_all_full (env : Env) (len : Nat) (rs : List fieldset_t) (s : State)
    (hI : Inv s) (hL : AllLen s len) (h0 : s.buffer_fill = 0)
    (hA : ∀ fs ∈ rs, Accepts len fs) (hlen : rs.length = BUFFER_SIZE) :
    ∃ rcs rc s1, process_all env s rs = .ok (rcs ++ [rc], s1) ∧ Inv s1 ∧ AllLen s1 len ∧
      s1.queue_name = s.queue_name ∧
      s1.log = s.log ++ [SinkCall.redis_lpush_strings s.queue_name (rs.map csv_text)] ∧
      (env.sink s1.log = 0 → rc = EXIT_SUCCESS ∧ s1.buffer_fill = 0 ∧ Pending s1 []) ∧
      (env.sink s1.log ≠ 0 → rc = EXIT_FAILURE ∧ s1.buffer_fill = BUFFER_SIZE ∧
        Pending s1 (rs.map csv_text)) := by
  rcases List.eq_nil_or_concat rs with hnil | ⟨rs0, fs, hrs⟩
  · subst hnil
    simp [BUFFER_SIZE] at hlen
  · rw [List.concat_eq_append] at hrs
    subst hrs
    simp only [List.length_append, List.length_singleton] at hlen
    have hA0 : ∀ g ∈ rs0, Accepts len g := fun g hg => hA g (List.mem_append_left _ hg)
    have hAf : Accepts len fs := hA fs (List.mem_append_right _ (List.mem_singleton_self _))
    obtain ⟨rcs, s1, e1, i1, l1, p1, f1, g1, q1, m1, _⟩ :=
      process_all_below env len rs0 s [] hI hL (pending_zero s h0) hA0 (by rw [h0]; omega)
    have hf1 : s1.buffer_fill + 1 = BUFFER_SIZE := by rw [f1, h0]; omega
    obtain ⟨rc, s2, e2, i2, l2, q2, m2, _, hfull⟩ :=
      process_spec env s1 fs ([] ++ rs0.map csv_text) len i1 l1 (by omega) hAf p1
    obtain ⟨g2, hs, hf⟩ := hfull hf1
    refine ⟨rcs, rc, s2, ?_, i2, l2, q2.trans q1, ?_, hs, ?_⟩
    · rw [process_all_append, e1]
      simp only [process_all, e2]
    · rw [g2, g1, q1]
      simp
    · intro h
      obtain ⟨a, b, c⟩ := hf h
      exact ⟨a, b, by simpa using c⟩

/-- The slot of index `i` of a pool that satisfies the invariant. -/
theorem slot_len (s : State) (len : Nat) (i : Int) (hI : Inv s) (hL : AllLen s len)
    (h0 : 0 ≤ i) (hN : i < BUFFER_SIZE) :
    ∃ v, at_index s.buffer i = .ok v ∧ v.len = len := by
  have hk : i.toNat < s.buffer.length := by
    rw [hI.buffer_length]
    omega
  exact ⟨s.buffer[i.toNat], at_index_ok _ _ _ h0 hN (List.getElem?_eq_getElem hk),
    hL _ (List.getElem_mem _)⟩

theorem accepts_replicate (len k : Nat) (fs : fieldset_t) (h : Accepts len fs) :
    ∀ g ∈ List.replicate k fs, Accepts len g := by
  intro g hg
  rw [List.eq_of_mem_replicate hg]
  exact h

/-- The function `redisstrmodule_close` when the strings that wait are `ts`: the flush
makes its call; `redis_close` is called after it only when the flush
succeeded. -/
theorem close_spec (env : Env) (s : State) (ts : List (List Char)) (hP : Pending s ts) :
    redisstrmodule_close env s =
      if env.sink (s.log ++ [SinkCall.redis_lpush_strings s.queue_name ts]) ≠ 0 then
        .ok (EXIT_FAILURE,
          { s with log := s.log ++ [SinkCall.redis_lpush_strings s.queue_name ts] })
      else if env.sink (s.log ++ [SinkCall.redis_lpush_strings s.queue_name ts]
          ++ [SinkCall.redis_close]) ≠ 0 then
        .ok (EXIT_FAILURE,
          { s with log := s.log ++ [SinkCall.redis_lpush_strings s.queue_name ts]
                     ++ [SinkCall.redis_close]
                   buffer_fill := 0 })
      else
        .ok (EXIT_SUCCESS,
          { s with log := s.log ++ [SinkCall.redis_lpush_strings s.queue_name ts]
                     ++ [SinkCall.redis_close]
                   buffer_fill := 0 }) := by
  unfold redisstrmodule_close
  rw [flush_spec env s ts hP]
  by_cases h1 : env.sink (s.log ++ [SinkCall.redis_lpush_strings s.queue_name ts]) = 0
  · rw [if_neg (by simpa using h1), if_neg (by simpa using h1)]
    simp only
    rw [if_neg (by simp [EXIT_SUCCESS])]
  · rw [if_pos h1, if_pos h1]
    simp only
    rw [if_pos (by simp [EXIT_FAILURE])]

/-! ## Hex text -/

theorem hex_getElem (b : List Nat) : ∀ (i x : Nat), b[i]? = some x →
    (hex b)[2 * i]? = some (Nat.digitChar (x % 256 / 16)) ∧
    (hex b)[2 * i + 1]? = some (Nat.digitChar (x % 256 % 16)) := by
  induction b with
  | nil => intro i x h; simp at h
  | cons y bs ih =>
    intro i x h
    cases i with
    | zero =>
      simp only [List.getElem?_cons_zero, Option.some.injEq] at h
      subst h
      simp [hex, hex2]
    | succ i =>
      simp only [List.getElem?_cons_succ] at h
      obtain ⟨h1, h2⟩ := ih i x h
      have e1 : 2 * (i + 1) = (2 * i) + 1 + 1 := by omega
      have e2 : 2 * (i + 1) + 1 = (2 * i + 1) + 1 + 1 := by omega
      simp only [hex, hex2, List.cons_append, List.nil_append]
      rw [e2, e1]
      simp only [List.getElem?_cons_succ]
      exact ⟨h1, h2⟩

/-- The function `hex_encode_str` at the start of a block with room for the text and its
terminator: the block then starts with the hex text and a terminator, and is
as before after them. -/
theorem hex_encode_str_zero (b : List Nat) (m : List Char) (hb : b ≠ [])
    (h : 2 * b.length + 1 ≤ m.length) :
    hex_encode_str m 0 b = .ok (hex b ++ NUL :: m.drop (2 * b.length + 1)) := by
  cases b with
  | nil => exact absurd rfl hb
  | cons x bs =>
    have := hex_encode_str_ok bs x [] m h
    simpa using this

theorem fits_single (len n : Nat) (f : field_t) (h : FieldFits len n 0 f []) :
    Fits len n 0 [f] [] := ⟨h, trivial⟩

theorem csv_text_single (f : field_t) : csv_text [f] = field_text 0 f [] := rfl

/-! ## The capacity checks -/

theorem nulFree_replicate (k : Nat) (c : Char) (hc : c ≠ NUL) : NulFree (List.replicate k c) := by
  intro h
  exact hc (List.eq_of_mem_replicate h).symm

theorem not_mem_replicate (k : Nat) (c d : Char) (hc : c ≠ d) : d ∉ List.replicate k c := by
  intro h
  exact hc (List.eq_of_mem_replicate h).symm

/-- A record of two equal texts of 600 characters is accepted by a slot of
capacity `DEFAULT_STR_LEN`. -/
theorem accepts_two_texts (s : List Char) (hs : NulFree s) (hl : s.length = 600) :
    Accepts DEFAULT_STR_LEN [field_t.FS_STRING s, field_t.FS_STRING s] := by
  refine ⟨?_, ?_, ?_, ?_⟩
  · intro f hf
    simp only [List.mem_cons, List.mem_singleton, List.not_mem_nil, or_false, or_self] at hf
    subst hf
    exact hs
  · intro f hf
    simp only [List.mem_cons, List.mem_singleton, List.not_mem_nil, or_false, or_self] at hf
    subst hf
    simp only [field_check, hl, DEFAULT_STR_LEN]
    decide
  · simp only [est_sum, field_est, hl, List.length_cons, List.length_nil]
    decide
  · simp only [est_sum, field_est, hl, SIZE_T]
    decide

theorem csv_text_two_texts (s : List Char) (hs : COMMA ∉ s) :
    csv_text [field_t.FS_STRING s, field_t.FS_STRING s] = s ++ s := by
  simp [csv_text, loop_text, field_text, enc_string, hs]

/-- The capacity check of source line 119 on the first field: a text at least
as long as the capacity argument ends the call in `log_fatal`. -/
theorem make_csv_string_overflow (ptr : List Char) (rest : fieldset_t) (out : List Char)
    (len : Nat) (h1 : 1 ≤ len) (h2 : len ≤ out.length) (h3 : ptr.length % SIZE_T ≥ len) :
    make_csv_string (field_t.FS_STRING ptr :: rest) out len = .error Fault.fatal_overflow := by
  unfold make_csv_string memset0
  rw [if_pos h2]
  obtain ⟨k, rfl⟩ : ∃ k, len = k + 1 := ⟨len - 1, by omega⟩
  have e : List.replicate (k + 1) NUL ++ List.drop (k + 1) out
      = [] ++ NUL :: (List.replicate k NUL ++ List.drop (k + 1) out) := by
    simp [List.replicate_succ]
  have hs := strlen_text [] (List.replicate k NUL ++ List.drop (k + 1) out) (by simp [NulFree])
  simp only [e, make_csv_loop, make_csv_field, hs, List.length_nil, ne_eq, not_true_eq_false,
    if_false, make_csv_value, Nat.zero_add]
  rw [if_pos h3]

/-- A fault of `store_record` is a fault of `redisstrmodule_process`. -/
theorem process_error (env : Env) (s : State) (fs : fieldset_t) (e : Fault)
    (h : store_record env s fs = .error e) : redisstrmodule_process env s fs = .error e := by
  rw [process_eq, h]

/-! ## The fill count -/

theorem regrow_fill (env : Env) (s s1 : State) (g : Nat) (h : regrow env s g = .ok s1) :
    s1.buffer_fill = s.buffer_fill := by
  unfold regrow at h
  cases h1 : at_index s.buffer s.buffer_fill with
  | error e => simp [h1] at h
  | ok v =>
    simp only [h1] at h
    cases h2 : free s.heap v.str with
    | error e => simp [h2] at h
    | ok heap1 =>
      simp only [h2] at h
      cases h3 : at_index s.buffer_export s.buffer_fill with
      | error e => simp [h3] at h
      | ok p =>
        simp only [h3] at h
        cases h
        rfl

theorem render_slot_fill (s s1 : State) (fs : fieldset_t) (h : render_slot s fs = .ok s1) :
    s1.buffer_fill = s.buffer_fill := by
  unfold render_slot at h
  cases h1 : at_index s.buffer s.buffer_fill with
  | error e => simp [h1] at h
  | ok v =>
    simp only [h1] at h
    cases h2 : load s.heap v.str with
    | error e => simp [h2] at h
    | ok out =>
      simp only [h2] at h
      cases h3 : make_csv_string fs out v.len with
      | error e => simp [h3] at h
      | ok out1 =>
        simp only [h3] at h
        cases h
        rfl

theorem store_record_fill (env : Env) (s s3 : State) (fs : fieldset_t)
    (h : store_record env s fs = .ok s3) : s3.buffer_fill = s.buffer_fill + 1 := by
  unfold store_record at h
  cases h1 : guess_csv_string_length fs with
  | error e => simp [h1] at h
  | ok g =>
    simp only [h1] at h
    cases h2 : at_index s.buffer s.buffer_fill with
    | error e => simp [h2] at h
    | ok v =>
      simp only [h2] at h
      cases h3 : (if g > v.len then regrow env s g else Except.ok s) with
      | error e => simp [h3] at h
      | ok s1 =>
        simp only [h3] at h
        have hs1 : s1.buffer_fill = s.buffer_fill := by
          by_cases hg : g > v.len
          · rw [if_pos hg] at h3
            exact regrow_fill env s s1 g h3
          · rw [if_neg hg] at h3
            cases h3
            rfl
        cases h4 : render_slot s1 fs with
        | error e => simp [h4] at h
        | ok s2 =>
          simp only [h4] at h
          cases h
          show s2.buffer_fill + 1 = s.buffer_fill + 1
          rw [render_slot_fill s1 s2 fs h4, hs1]

/-- A flush that returns either succeeded and reset `buffer_fill`, or failed
and left it. -/
theorem flush_cases (env : Env) (s s1 : State) (rc : Int)
    (h : redisstrmodule_flush env s = .ok (rc, s1)) :
    (rc = EXIT_SUCCESS ∧ s1.buffer_fill = 0) ∨
    (rc = EXIT_FAILURE ∧ s1.buffer_fill = s.buffer_fill) := by
  unfold redisstrmodule_flush at h
  cases h1 : read_strings s.heap s.buffer_export s.buffer_fill with
  | error e => simp [h1] at h
  | ok ts =>
    simp only [h1] at h
    split at h
    · cases h
      exact Or.inr ⟨rfl, rfl⟩
    · cases h
      exact Or.inl ⟨rfl, rfl⟩

/-- A call of `redisstrmodule_process` that returns: below the last slot it
returns success with `buffer_fill` incremented; on the last slot it returns
success with `buffer_fill = 0`, or failure with `buffer_fill = BUFFER_SIZE`. -/
theorem process_cases (env : Env) (s s1 : State) (fs : fieldset_t) (rc : Int)
    (h : redisstrmodule_process env s fs = .ok (rc, s1)) :
    (s.buffer_fill + 1 ≠ BUFFER_SIZE ∧ rc = EXIT_SUCCESS ∧
      s1.buffer_fill = s.buffer_fill + 1) ∨
    (s.buffer_fill + 1 = BUFFER_SIZE ∧
      ((rc = EXIT_SUCCESS ∧ s1.buffer_fill = 0) ∨
        (rc = EXIT_FAILURE ∧ s1.buffer_fill = BUFFER_SIZE))) := by
  rw [process_eq] at h
  cases h1 : store_record env s fs with
  | error e => simp [h1] at h
  | ok s3 =>
    simp only [h1] at h
    have f3 := store_record_fill env s s3 fs h1
    by_cases hfull : s3.buffer_fill = (BUFFER_SIZE : Int)
    · rw [if_pos hfull] at h
      cases h2 : redisstrmodule_flush env s3 with
      | error e => simp [h2] at h
      | ok r =>
        obtain ⟨rc2, s4⟩ := r
        simp only [h2] at h
        right
        refine ⟨by rw [← f3]; exact hfull, ?_⟩
        rcases flush_cases env s3 s4 rc2 h2 with ⟨hr, hf⟩ | ⟨hr, hf⟩
        · subst hr
          rw [if_neg (by decide)] at h
          cases h
          exact Or.inl ⟨rfl, hf⟩
        · subst hr
          rw [if_pos (by decide)] at h
          cases h
          exact Or.inr ⟨rfl, by rw [hf]; exact hfull⟩
    · rw [if_neg hfull] at h
      cases h
      exact Or.inl ⟨by rw [← f3]; exact hfull, rfl, f3⟩

theorem reach_fill (env : Env) (s : State) (h : Reach env s) :
    0 ≤ s.buffer_fill ∧ s.buffer_fill ≤ BUFFER_SIZE := by
  induction h with
  | init args =>
    rw [(init_state env args).2.1]
    exact ⟨le_refl _, by decide⟩
  | process s fs rc s1 _ hlt hp ih =>
    rcases process_cases env s s1 fs rc hp with ⟨_, _, hf⟩ | ⟨_, ⟨_, hf⟩ | ⟨_, hf⟩⟩
    · rw [hf]
      omega
    · rw [hf]
      exact ⟨le_refl _, by decide⟩
    · rw [hf]
      exact ⟨by decide, le_refl _⟩
  | flush s rc s1 _ hf ih =>
    rcases flush_cases env s s1 rc hf with ⟨_, hf⟩ | ⟨_, hf⟩
    · rw [hf]
      exact ⟨le_refl _, by decide⟩
    · rw [hf]
      exact ih

/-- With `buffer_fill = BUFFER_SIZE`, `redisstrmodule_process` on a record of
recognised kinds reads `buffer[BUFFER_SIZE]`, outside the array. -/
theorem process_out_of_bounds (env : Env) (s : State) (fs : fieldset_t)
    (hf : s.buffer_fill = BUFFER_SIZE) (hr : Recognised fs) :
    at_index s.buffer s.buffer_fill = .error Fault.memory ∧
    redisstrmodule_process env s fs = .error Fault.memory := by
  have ha : at_index s.buffer s.buffer_fill = .error Fault.memory := by
    unfold at_index
    rw [if_neg (by rw [hf]; simp)]
  refine ⟨ha, ?_⟩
  apply process_error
  simp only [store_record, guess_eq_of_recognised fs hr, ha]

/-- Calls of `redisstrmodule_process` that start below the last slot and are
no more than the free slots lead from a reachable state to a reachable
state. -/
theorem process_all_reach (env : Env) (rs : List fieldset_t) : ∀ (s s1 : State)
    (rcs : List Int), Reach env s → s.buffer_fill + rs.length ≤ BUFFER_SIZE →
    process_all env s rs = .ok (rcs, s1) → Reach env s1 := by
  induction rs with
  | nil =>
    intro s s1 rcs hr _ h
    simp only [process_all] at h
    cases h
    exact hr
  | cons fs rs ih =>
    intro s s1 rcs hr hle h
    simp only [List.length_cons, Nat.cast_add, Nat.cast_one] at hle
    simp only [process_all] at h
    cases h1 : redisstrmodule_process env s fs with
    | error e => simp [h1] at h
    | ok r =>
      obtain ⟨rc, s2⟩ := r
      simp only [h1] at h
      cases h2 : process_all env s2 rs with
      | error e => simp [h2] at h
      | ok r2 =>
        obtain ⟨rcs2, s3⟩ := r2
        simp only [h2] at h
        cases h
        have hr2 : Reach env s2 := Reach.process s fs rc s2 hr (by omega) h1
        rcases process_cases env s s2 fs rc h1 with ⟨_, _, hf⟩ | ⟨hN, _⟩
        · exact ih s2 _ _ hr2 (by rw [hf]; omega) h2
        · have hnil : rs = [] := by
            apply List.eq_nil_of_length_eq_zero
            omega
          subst hnil
          simp only [process_all] at h2
          cases h2
          exact hr2

theorem env_fail_sink (log : List SinkCall) : env_fail.sink log ≠ 0 := by
  show (1 : Int) ≠ 0
  decide

/-! ## The text of a record, field by field -/

theorem loop_text_pieces (fs : fieldset_t) : ∀ (i : Nat) (t : List Char), NoBinary fs →
    loop_text i fs t = t ++ pieces i fs := by
  induction fs with
  | nil => intro i t _; simp [loop_text, pieces]
  | cons f fs ih =>
    intro i t h
    have hfs : NoBinary fs := fun g hg => h g (List.mem_cons_of_mem _ hg)
    have hf := h f (List.mem_cons_self _ _)
    simp only [loop_text, pieces]
    rw [ih _ _ hfs]
    cases f with
    | FS_STRING ptr => simp [field_text, piece]
    | FS_UINT64 num => simp [field_text, piece]
    | FS_BINARY ptr => exact absurd rfl (hf ptr)
    | FS_NULL =>
      simp only [field_text, piece]
      split <;> simp
    | FS_OTHER => simp [field_text, piece]

theorem loop_text_append (l1 l2 : fieldset_t) : ∀ (i : Nat) (t : List Char),
    loop_text i (l1 ++ l2) t = loop_text (i + l1.length) l2 (loop_text i l1 t) := by
  induction l1 with
  | nil => intro i t; simp [loop_text]
  | cons f l1 ih =>
    intro i t
    simp only [List.cons_append, loop_text, List.length_cons, List.append_eq]
    rw [ih]
    congr 1
    omega

theorem loop_text_last_binary (pre : fieldset_t) (b : List Nat) (hb : b ≠ []) (i : Nat)
    (t : List Char) : loop_text i (pre ++ [field_t.FS_BINARY b]) t = hex b := by
  rw [loop_text_append]
  cases b with
  | nil => exact absurd rfl hb
  | cons x bs => rfl

/-! ## The claims -/

/-- C1 (the code departs from the claim).  The record of the text `a,b` and
the integer 7, rendered into a buffer of `guess_csv_string_length` bytes
(306), gives `"a,b"7`: the second field is stored where its delimiter was
just stored, so no `,` separates the two encodings.  The record of a null
field and the one-byte blob `0a`, rendered into 260 bytes, gives `0a` and
not `,0a`: the hex text is stored at the start of the buffer. -/
theorem C1_delimiter_is_overwritten (c : Char) :
    guess_csv_string_length [field_t.FS_STRING ['a', ',', 'b'], field_t.FS_UINT64 7]
      = .ok 306 ∧
    (∃ out1, make_csv_string [field_t.FS_STRING ['a', ',', 'b'], field_t.FS_UINT64 7]
        (List.replicate 306 c) 306 = .ok out1 ∧
      cstr out1 = [QUOTE, 'a', ',', 'b', QUOTE, '7'] ∧
      cstr out1 ≠ [QUOTE, 'a', ',', 'b', QUOTE, ',', '7']) ∧
    guess_csv_string_length [field_t.FS_NULL, field_t.FS_BINARY [10]] = .ok 260 ∧
    (∃ out2, make_csv_string [field_t.FS_NULL, field_t.FS_BINARY [10]]
        (List.replicate 260 c) 260 = .ok out2 ∧
      cstr out2 = ['0', 'a'] ∧ cstr out2 ≠ [',', '0', 'a']) := by
  refine ⟨?_, ?_, ?_, ?_⟩
  · rw [guess_eq _ (by decide)]
    rfl
  · obtain ⟨out1, e1, _, e3, _⟩ := make_csv_string_text
      [field_t.FS_STRING ['a', ',', 'b'], field_t.FS_UINT64 7] (List.replicate 306 c) 306
      (by decide) (by decide) (by decide) (by rw [List.length_replicate])
      (by rw [List.length_replicate]; decide)
    refine ⟨out1, e1, ?_, ?_⟩
    · rw [e3]
      decide
    · rw [e3]
      decide
  · rw [guess_eq _ (by decide)]
    rfl
  · obtain ⟨out2, e1, _, e3, _⟩ := make_csv_string_text
      [field_t.FS_NULL, field_t.FS_BINARY [10]] (List.replicate 260 c) 260
      (by decide) (by decide) (by decide) (by rw [List.length_replicate])
      (by rw [List.length_replicate]; decide)
    refine ⟨out2, e1, ?_, ?_⟩
    · rw [e3]
      decide
    · rw [e3]
      decide

/-- C10.  For every text `s` (a C string) and every capacity `len` greater
than `length s + 2`, in a buffer of at least `len` bytes: `make_csv_string`
on the record whose only field is the text `s` returns, and the text it
leaves is `s` between two quote characters when `s` contains the delimiter,
and exactly `s` when it does not. -/
theorem C10_quoting_of_a_text_field (s out : List Char) (len : Nat) (hs : NulFree s)
    (hlen : s.length + 2 < len) (hout : len ≤ out.length) :
    ∃ out1, make_csv_string [field_t.FS_STRING s] out len = .ok out1 ∧
      (COMMA ∈ s → cstr out1 = QUOTE :: (s ++ [QUOTE])) ∧
      (COMMA ∉ s → cstr out1 = s) := by
  have hf : Fits len out.length 0 [field_t.FS_STRING s] [] := by
    refine ⟨⟨fun h => absurd rfl h, hs, ?_, ?_⟩, trivial⟩
    · exact lt_of_le_of_lt (Nat.mod_le _ _) (by simp [delim]; omega)
    · have := enc_string_length s
      simp only [List.length_nil]
      omega
  obtain ⟨rest1, e1, _, e3⟩ := make_csv_string_ok [field_t.FS_STRING s] out len
    (by omega) hout hf
  refine ⟨_, e1, ?_, ?_⟩
  · intro h
    rw [cstr_text _ _ e3]
    simp [csv_text, loop_text, field_text, enc_string, h]
  · intro h
    rw [cstr_text _ _ e3]
    simp [csv_text, loop_text, field_text, enc_string, h]

/-- C10, witness: the texts `a,b` and `ab` with capacity 8 in a buffer of 8
bytes. -/
theorem C10_quoting_of_a_text_field_witness :
    (∃ out1, make_csv_string [field_t.FS_STRING ['a', ',', 'b']] (List.replicate 8 NUL) 8
        = .ok out1 ∧
      (COMMA ∈ ['a', ',', 'b'] → cstr out1 = QUOTE :: (['a', ',', 'b'] ++ [QUOTE])) ∧
      (COMMA ∉ ['a', ',', 'b'] → cstr out1 = ['a', ',', 'b'])) ∧
    COMMA ∈ ['a', ',', 'b'] :=
  ⟨C10_quoting_of_a_text_field ['a', ',', 'b'] (List.replicate 8 NUL) 8 (by decide)
    (by decide) (by rw [List.length_replicate]), by decide⟩

/-- C3.  From the state that `redisstrmodule_init` returns, with a sink that
reports success, for `BUFFER_SIZE` records that the slots accept: after the
first `BUFFER_SIZE - 1` calls of `redisstrmodule_process` no call of
`redis_lpush_strings` has been made and `buffer_fill` is `BUFFER_SIZE - 1`;
after all `BUFFER_SIZE` calls exactly one has been made and `buffer_fill`
is 0.  All the calls return. -/
theorem C3_batch_fullness (env : Env) (args : Option String) (rs : List fieldset_t)
    (hsink : ∀ log, env.sink log = 0) (hA : ∀ fs ∈ rs, Accepts DEFAULT_STR_LEN fs)
    (hlen : rs.length = BUFFER_SIZE) :
    (∃ rcs s1, process_all env (redisstrmodule_init env args).2 (rs.take (BUFFER_SIZE - 1))
        = .ok (rcs, s1) ∧
      lpush_calls s1.log = [] ∧ s1.buffer_fill = (BUFFER_SIZE : Int) - 1) ∧
    (∃ rcs s2, process_all env (redisstrmodule_init env args).2 rs = .ok (rcs, s2) ∧
      (lpush_calls s2.log).length = 1 ∧ s2.buffer_fill = 0) := by
  obtain ⟨hI, h0, hL, hP, hlog⟩ := init_state env args
  constructor
  · have hl : (rs.take (BUFFER_SIZE - 1)).length = BUFFER_SIZE - 1 := by
      rw [List.length_take, hlen]
      simp
    obtain ⟨rcs, s1, e1, _, _, _, f1, g1, _⟩ := process_all_below env DEFAULT_STR_LEN
      (rs.take (BUFFER_SIZE - 1)) _ [] hI hL hP
      (fun fs hfs => hA fs (List.mem_of_mem_take hfs))
      (by rw [h0, hl]; simp [BUFFER_SIZE])
    refine ⟨rcs, s1, e1, ?_, ?_⟩
    · rw [g1, hlog]
      rfl
    · rw [f1, h0, hl]
      simp [BUFFER_SIZE]
  · obtain ⟨rcs, rc, s2, e2, _, _, _, g2, hs, _⟩ :=
      process_all_full env DEFAULT_STR_LEN rs _ hI hL h0 hA hlen
    refine ⟨rcs ++ [rc], s2, e2, ?_, (hs (hsink _)).2.1⟩
    rw [g2, hlog]
    rfl

/-- C3, witness: `BUFFER_SIZE` records of one integer field each, with the
sink `env_ok`. -/
theorem C3_batch_fullness_witness :
    (∃ rcs s1, process_all env_ok (redisstrmodule_init env_ok none).2
        ((List.replicate BUFFER_SIZE [field_t.FS_UINT64 7]).take (BUFFER_SIZE - 1))
        = .ok (rcs, s1) ∧
      lpush_calls s1.log = [] ∧ s1.buffer_fill = (BUFFER_SIZE : Int) - 1) ∧
    (∃ rcs s2, process_all env_ok (redisstrmodule_init env_ok none).2
        (List.replicate BUFFER_SIZE [field_t.FS_UINT64 7]) = .ok (rcs, s2) ∧
      (lpush_calls s2.log).length = 1 ∧ s2.buffer_fill = 0) :=
  C3_batch_fullness env_ok none (List.replicate BUFFER_SIZE [field_t.FS_UINT64 7])
    (fun _ => rfl) (accepts_replicate _ _ _ (by decide)) (List.length_replicate _ _)

/-- C4.  (1) In every state in which the strings at the first `buffer_fill`
entries of `buffer_export` are `ts`, `redisstrmodule_flush` returns after
exactly one call of `redis_lpush_strings`, with `queue_name` and `ts`
(`buffer_fill` strings, in slot order); when the sink reports success it
returns success with `buffer_fill` reset to 0.  (2) After `k` calls of
`redisstrmodule_process`, `0 < k < BUFFER_SIZE`, from a state with
`buffer_fill = 0`, `buffer_fill` is `k`, the strings at the first `k` entries
are the texts rendered by the `k` calls, in the order of the calls (a later
call leaves the text of an earlier slot as it was), and a flush sends exactly
these.  (3) With `k = BUFFER_SIZE`, the flush that the last call itself
performs, at `buffer_fill = BUFFER_SIZE`, is one call of
`redis_lpush_strings` with exactly the `BUFFER_SIZE` rendered texts in
order; when the sink reports success `buffer_fill` is 0 afterwards; when it
reports an error the state keeps `buffer_fill = BUFFER_SIZE` and the same
strings, and a further flush sends exactly these `BUFFER_SIZE` texts
again. -/
theorem C4_flush_sends_the_filled_slots (env : Env) :
    (∀ (s : State) (ts : List (List Char)),
      read_strings s.heap s.buffer_export s.buffer_fill = .ok ts →
      ∃ rc s1, redisstrmodule_flush env s = .ok (rc, s1) ∧
        s1.log = s.log ++ [SinkCall.redis_lpush_strings s.queue_name ts] ∧
        (ts.length : Int) = s.buffer_fill ∧
        (env.sink s1.log = 0 → rc = EXIT_SUCCESS ∧ s1.buffer_fill = 0)) ∧
    (∀ (s0 : State) (len : Nat) (rs : List fieldset_t), Inv s0 → AllLen s0 len →
      s0.buffer_fill = 0 → (∀ fs ∈ rs, Accepts len fs) → 0 < rs.length →
      rs.length < BUFFER_SIZE →
      ∃ rcs s, process_all env s0 rs = .ok (rcs, s) ∧ s.buffer_fill = rs.length ∧
        0 < s.buffer_fill ∧ s.buffer_fill < BUFFER_SIZE ∧ s.log = s0.log ∧
        read_strings s.heap s.buffer_export s.buffer_fill = .ok (rs.map csv_text) ∧
        ∃ rc s1, redisstrmodule_flush env s = .ok (rc, s1) ∧
          s1.log = s0.log ++ [SinkCall.redis_lpush_strings s0.queue_name (rs.map csv_text)] ∧
          (env.sink s1.log = 0 → rc = EXIT_SUCCESS ∧ s1.buffer_fill = 0)) ∧
    (∀ (s0 : State) (len : Nat) (rs : List fieldset_t), Inv s0 → AllLen s0 len →
      s0.buffer_fill = 0 → (∀ fs ∈ rs, Accepts len fs) → rs.length = BUFFER_SIZE →
      ∃ rcs rc s, process_all env s0 rs = .ok (rcs ++ [rc], s) ∧
        s.log = s0.log ++ [SinkCall.redis_lpush_strings s0.queue_name (rs.map csv_text)] ∧
        (rs.map csv_text).length = BUFFER_SIZE ∧
        (env.sink s.log = 0 → rc = EXIT_SUCCESS ∧ s.buffer_fill = 0) ∧
        (env.sink s.log ≠ 0 → rc = EXIT_FAILURE ∧ s.buffer_fill = BUFFER_SIZE ∧
          read_strings s.heap s.buffer_export s.buffer_fill = .ok (rs.map csv_text) ∧
          ∃ rc2 s2, redisstrmodule_flush env s = .ok (rc2, s2) ∧
            s2.log = s.log ++
              [SinkCall.redis_lpush_strings s0.queue_name (rs.map csv_text)] ∧
            (env.sink s2.log = 0 → rc2 = EXIT_SUCCESS ∧ s2.buffer_fill = 0))) := by
  have hflush : ∀ (s : State) (ts : List (List Char)), Pending s ts →
      ∃ rc s1, redisstrmodule_flush env s = .ok (rc, s1) ∧
        s1.log = s.log ++ [SinkCall.redis_lpush_strings s.queue_name ts] ∧
        (ts.length : Int) = s.buffer_fill ∧
        (env.sink s1.log = 0 → rc = EXIT_SUCCESS ∧ s1.buffer_fill = 0) := by
    intro s ts hP
    have hl := pending_length s ts hP
    rw [flush_spec env s ts hP]
    by_cases h1 : env.sink (s.log ++ [SinkCall.redis_lpush_strings s.queue_name ts]) = 0
    · rw [if_neg (by simpa using h1)]
      exact ⟨_, _, rfl, rfl, hl, fun _ => ⟨rfl, rfl⟩⟩
    · rw [if_pos h1]
      exact ⟨_, _, rfl, rfl, hl, fun h => absurd h h1⟩
  refine ⟨hflush, ?_, ?_⟩
  · intro s0 len rs hI hL h0 hA hpos hlt
    obtain ⟨rcs, s, e1, _, _, p1, f1, g1, q1, _⟩ := process_all_below env len rs s0 [] hI hL
      (pending_zero s0 h0) hA (by rw [h0]; omega)
    rw [h0] at f1
    simp only [List.nil_append] at p1
    obtain ⟨rc, s1, e2, l2, _, hs⟩ := hflush s _ p1
    refine ⟨rcs, s, e1, by rw [f1]; simp, by rw [f1]; omega, by rw [f1]; omega, g1, p1,
      rc, s1, e2, ?_, hs⟩
    rw [l2, g1, q1]
  · intro s0 len rs hI hL h0 hA hlen
    obtain ⟨rcs, rc, s, e1, _, _, q1, g1, hs, hf⟩ :=
      process_all_full env len rs s0 hI hL h0 hA hlen
    refine ⟨rcs, rc, s, e1, g1, by rw [List.length_map, hlen],
      fun h => ⟨(hs h).1, (hs h).2.1⟩, ?_⟩
    intro h
    obtain ⟨hrc, hfill, hP⟩ := hf h
    obtain ⟨rc2, s2, e2, l2, _, hs2⟩ := hflush s _ hP
    refine ⟨hrc, hfill, hP, rc2, s2, e2, ?_, hs2⟩
    rw [l2, q1]

/-- C4, witness: two records with a sink that reports success, and a full
batch of `BUFFER_SIZE` records with a sink that reports an error, both from
the state that `redisstrmodule_init` returns. -/
theorem C4_flush_sends_the_filled_slots_witness :
    (∃ rcs s, process_all env_ok (redisstrmodule_init env_ok none).2
        [[field_t.FS_UINT64 7], [field_t.FS_NULL, field_t.FS_BINARY [10]]] = .ok (rcs, s) ∧
      s.buffer_fill = 2 ∧
      read_strings s.heap s.buffer_export s.buffer_fill = .ok [['7'], ['0', 'a']] ∧
      ∃ s1, redisstrmodule_flush env_ok s = .ok (EXIT_SUCCESS, s1) ∧
        s1.log = [SinkCall.redis_init none,
          SinkCall.redis_lpush_strings "zmap" [['7'], ['0', 'a']]] ∧
        s1.buffer_fill = 0) ∧
    (∃ rcs s, process_all env_fail (redisstrmodule_init env_fail none).2
        (List.replicate BUFFER_SIZE [field_t.FS_UINT64 7]) = .ok (rcs ++ [EXIT_FAILURE], s) ∧
      s.buffer_fill = BUFFER_SIZE ∧
      s.log = [SinkCall.redis_init none,
        SinkCall.redis_lpush_strings "zmap" (List.replicate BUFFER_SIZE ['7'])] ∧
      read_strings s.heap s.buffer_export s.buffer_fill
        = .ok (List.replicate BUFFER_SIZE ['7']) ∧
      ∃ s2, redisstrmodule_flush env_fail s = .ok (EXIT_FAILURE, s2) ∧
        s2.log = [SinkCall.redis_init none,
          SinkCall.redis_lpush_strings "zmap" (List.replicate BUFFER_SIZE ['7']),
          SinkCall.redis_lpush_strings "zmap" (List.replicate BUFFER_SIZE ['7'])]) := by
  constructor
  · obtain ⟨hI, h0, hL, _, hlog⟩ := init_state env_ok none
    have hq : (redisstrmodule_init env_ok none).2.queue_name = "zmap" := by
      rw [init_unfold]
    obtain ⟨rcs, s, e1, f1, _, _, _, p1, rc, s1, e2, l2, hs⟩ :=
      (C4_flush_sends_the_filled_slots env_ok).2.1 _ DEFAULT_STR_LEN
        [[field_t.FS_UINT64 7], [field_t.FS_NULL, field_t.FS_BINARY [10]]]
        hI hL h0 (by decide) (by decide) (by decide)
    obtain ⟨hrc, hz⟩ := hs rfl
    subst hrc
    have hm : List.map csv_text
        [[field_t.FS_UINT64 7], [field_t.FS_NULL, field_t.FS_BINARY [10]]]
        = [['7'], ['0', 'a']] := by decide
    rw [hm] at p1 l2
    rw [hlog, hq] at l2
    exact ⟨rcs, s, e1, by simpa using f1, p1, s1, e2, l2, hz⟩
  · obtain ⟨hI, h0, hL, _, hlog⟩ := init_state env_fail none
    have hq : (redisstrmodule_init env_fail none).2.queue_name = "zmap" := by
      rw [init_unfold]
    obtain ⟨rcs, rc, s, e1, g1, _, _, hf⟩ :=
      (C4_flush_sends_the_filled_slots env_fail).2.2 _ DEFAULT_STR_LEN
        (List.replicate BUFFER_SIZE [field_t.FS_UINT64 7])
        hI hL h0 (accepts_replicate _ _ _ (by decide)) (List.length_replicate _ _)
    obtain ⟨hrc, hfill, p1, rc2, s2, e2, l2, _⟩ := hf (env_fail_sink _)
    subst hrc
    have hm : List.map csv_text (List.replicate BUFFER_SIZE [field_t.FS_UINT64 7])
        = List.replicate BUFFER_SIZE ['7'] := by
      rw [List.map_replicate]
      rfl
    rw [hm] at p1 l2 g1
    rw [hlog, hq] at g1
    rw [hq, g1] at l2
    have hrc2 : rc2 = EXIT_FAILURE := by
      rcases flush_cases env_fail s s2 rc2 e2 with ⟨_, hz⟩ | ⟨h, _⟩
      · have e3 := e2
        rw [flush_spec env_fail s _ p1, if_pos (env_fail_sink _)] at e3
        have := congrArg (fun r => match r with
          | Except.ok (_, x) => x.buffer_fill
          | Except.error _ => 0) e3
        simp only at this
        rw [hz, hfill] at this
        exact absurd this (by decide)
      · exact h
    subst hrc2
    exact ⟨rcs, s, e1, hfill, g1, p1, s2, e2, l2⟩

/-- C5.  (1) In every state in which the strings `ts` wait, whatever
`buffer_fill` is: when the sink reports an error to the call that
`redisstrmodule_flush` makes, the flush returns failure and the state is the
one before it with that single call added to the log, so `buffer_fill`, the
slots and their blocks are unchanged and the sink was invoked exactly once.
(2) In a state that satisfies the pool invariant, with `buffer_fill <
BUFFER_SIZE`, `redisstrmodule_process` on a record that the slot accepts
returns success or failure.  Below the last slot it makes no call to the
sink.  On the last slot it makes exactly one call of `redis_lpush_strings`,
with all the texts.  It returns failure exactly when this call brought
`buffer_fill` to `BUFFER_SIZE` and the sink reports an error to that
`redis_lpush_strings` call; then `buffer_fill` stays `BUFFER_SIZE` and the
same strings still wait. -/
theorem C5_sink_failure (env : Env) :
    (∀ (s : State) (ts : List (List Char)),
      read_strings s.heap s.buffer_export s.buffer_fill = .ok ts →
      env.sink (s.log ++ [SinkCall.redis_lpush_strings s.queue_name ts]) ≠ 0 →
      redisstrmodule_flush env s = .ok (EXIT_FAILURE,
        { s with log := s.log ++ [SinkCall.redis_lpush_strings s.queue_name ts] })) ∧
    (∀ (s : State) (fs : fieldset_t) (ts : List (List Char)) (len : Nat),
      Inv s → AllLen s len → s.buffer_fill < BUFFER_SIZE → Accepts len fs →
      read_strings s.heap s.buffer_export s.buffer_fill = .ok ts →
      ∃ rc s1, redisstrmodule_process env s fs = .ok (rc, s1) ∧
        (rc = EXIT_FAILURE ↔
          (s.buffer_fill + 1 = BUFFER_SIZE ∧
            env.sink (s.log ++
              [SinkCall.redis_lpush_strings s.queue_name (ts ++ [csv_text fs])]) ≠ 0)) ∧
        (rc = EXIT_SUCCESS ∨ rc = EXIT_FAILURE) ∧
        (s.buffer_fill + 1 = BUFFER_SIZE →
          s1.log = s.log ++
            [SinkCall.redis_lpush_strings s.queue_name (ts ++ [csv_text fs])]) ∧
        (s.buffer_fill + 1 ≠ BUFFER_SIZE →
          s1.log = s.log ∧ s1.buffer_fill = s.buffer_fill + 1) ∧
        (rc = EXIT_SUCCESS → s.buffer_fill + 1 = BUFFER_SIZE → s1.buffer_fill = 0) ∧
        (rc = EXIT_FAILURE → s1.buffer_fill = BUFFER_SIZE ∧
          read_strings s1.heap s1.buffer_export s1.buffer_fill
            = .ok (ts ++ [csv_text fs]))) := by
  constructor
  · intro s ts hP h
    rw [flush_spec env s ts hP, if_pos h]
  · intro s fs ts len hI hL hN hA hP
    obtain ⟨rc, s1, e1, _, _, _, _, hbelow, hfull⟩ := process_spec env s fs ts len hI hL hN hA hP
    by_cases hf : s.buffer_fill + 1 = BUFFER_SIZE
    · obtain ⟨g, hs, hfl⟩ := hfull hf
      by_cases h0 : env.sink s1.log = 0
      · obtain ⟨hrc, hz, _⟩ := hs h0
        subst hrc
        refine ⟨_, s1, e1, ⟨fun h => absurd h (by decide), ?_⟩, Or.inl rfl, fun _ => g,
          fun h => absurd hf h, fun _ _ => hz, fun h => absurd h (by decide)⟩
        rintro ⟨_, hne⟩
        rw [← g] at hne
        exact absurd h0 hne
      · obtain ⟨hrc, hz, hP1⟩ := hfl h0
        subst hrc
        refine ⟨_, s1, e1, ⟨fun _ => ⟨hf, by rw [← g]; exact h0⟩, fun _ => rfl⟩, Or.inr rfl,
          fun _ => g, fun h => absurd hf h, fun h => absurd h (by decide), fun _ => ⟨hz, hP1⟩⟩
    · obtain ⟨hrc, hz, g, _⟩ := hbelow hf
      subst hrc
      exact ⟨_, s1, e1, ⟨fun h => absurd h (by decide), fun h => absurd h.1 hf⟩, Or.inl rfl,
        fun h => absurd h hf, fun _ => ⟨g, hz⟩, fun _ h => absurd h hf,
        fun h => absurd h (by decide)⟩

/-- C5, witness: with a sink that reports an error to every call, after
`BUFFER_SIZE - 1` records from the state that `redisstrmodule_init` returns,
the call of `redisstrmodule_process` for one more record returns failure
after one call of `redis_lpush_strings` with the `BUFFER_SIZE` texts, and
leaves `buffer_fill = BUFFER_SIZE`; a flush in that state fails again and
changes nothing but the log. -/
theorem C5_sink_failure_witness :
    ∃ rcs s s1, process_all env_fail (redisstrmodule_init env_fail none).2
        (List.replicate (BUFFER_SIZE - 1) [field_t.FS_UINT64 7]) = .ok (rcs, s) ∧
      s.buffer_fill + 1 = BUFFER_SIZE ∧
      redisstrmodule_process env_fail s [field_t.FS_UINT64 7] = .ok (EXIT_FAILURE, s1) ∧
      s1.log = s.log ++ [SinkCall.redis_lpush_strings s.queue_name
        (List.replicate (BUFFER_SIZE - 1) ['7'] ++ [['7']])] ∧
      s1.buffer_fill = BUFFER_SIZE ∧
      redisstrmodule_flush env_fail s1 = .ok (EXIT_FAILURE,
        { s1 with log := s1.log ++ [SinkCall.redis_lpush_strings s1.queue_name
          (List.replicate (BUFFER_SIZE - 1) ['7'] ++ [['7']])] }) := by
  obtain ⟨hI, h0, hL, hP, _⟩ := init_state env_fail none
  obtain ⟨rcs, s, e1, i1, l1, p1, f1, _⟩ := process_all_below env_fail DEFAULT_STR_LEN
    (List.replicate (BUFFER_SIZE - 1) [field_t.FS_UINT64 7]) _ [] hI hL hP
    (accepts_replicate _ _ _ (by decide)) (by rw [h0, List.length_replicate]; decide)
  have hm : [] ++ List.map csv_text (List.replicate (BUFFER_SIZE - 1) [field_t.FS_UINT64 7])
      = List.replicate (BUFFER_SIZE - 1) ['7'] := by
    rw [List.nil_append, List.map_replicate]
    rfl
  rw [hm] at p1
  have hfill : s.buffer_fill + 1 = BUFFER_SIZE := by
    rw [f1, h0, List.length_replicate]
    decide
  obtain ⟨rc, s1, e2, hiff, _, hlog, _, _, hfail⟩ :=
    (C5_sink_failure env_fail).2 s [field_t.FS_UINT64 7] _ DEFAULT_STR_LEN i1 l1
      (by rw [← hfill]; omega) (by decide) p1
  have hrc : rc = EXIT_FAILURE := hiff.2 ⟨hfill, env_fail_sink _⟩
  subst hrc
  obtain ⟨hz, p2⟩ := hfail rfl
  have hc : csv_text [field_t.FS_UINT64 7] = ['7'] := by decide
  rw [hc] at p2 hlog
  exact ⟨rcs, s, s1, e1, hfill, e2, hlog hfill, hz,
    (C5_sink_failure env_fail).1 s1 _ p2 (env_fail_sink _)⟩

/-- C6, counterexample.  In the state that `redisstrmodule_init` returns
(`buffer_fill = 0`), `redisstrmodule_flush` calls `redis_lpush_strings`: the
log then holds that call, with the queue name and no string. -/
theorem C6_flush_of_empty_batch_calls_sink :
    ∃ s1, (redisstrmodule_init env_ok none).2.buffer_fill = 0 ∧
      redisstrmodule_flush env_ok (redisstrmodule_init env_ok none).2
        = .ok (EXIT_SUCCESS, s1) ∧
      s1.log = [SinkCall.redis_init none, SinkCall.redis_lpush_strings "zmap" []] ∧
      (lpush_calls s1.log).length = 1 := by
  obtain ⟨_, h0, _, hP, hlog⟩ := init_state env_ok none
  have hq : (redisstrmodule_init env_ok none).2.queue_name = "zmap" := by
    rw [init_unfold]
  rw [flush_spec env_ok _ [] hP, if_neg (fun h => h rfl)]
  refine ⟨_, h0, rfl, ?_, ?_⟩
  · show (redisstrmodule_init env_ok none).2.log ++ _ = _
    rw [hlog, hq]
    rfl
  · show (lpush_calls ((redisstrmodule_init env_ok none).2.log ++ _)).length = 1
    rw [hlog]
    rfl

/-- C6, as amended.  When `buffer_fill = 0`, `redisstrmodule_flush` returns
after exactly one call of `redis_lpush_strings`, with the queue name and no
string; the heap, the two arrays and `buffer_fill` are as before, and when
the sink reports success the value returned is success.  So
`redisstrmodule_close` in such a state makes that call too: with a sink that
reports success to it, the log gains that call and then `redis_close`. -/
theorem C6_flush_of_empty_batch (env : Env) (s : State) (h : s.buffer_fill = 0) :
    (∃ rc s1, redisstrmodule_flush env s = .ok (rc, s1) ∧
      s1.log = s.log ++ [SinkCall.redis_lpush_strings s.queue_name []] ∧
      s1.heap = s.heap ∧ s1.buffer = s.buffer ∧ s1.buffer_export = s.buffer_export ∧
      s1.buffer_fill = 0 ∧ s1.queue_name = s.queue_name ∧
      (env.sink s1.log = 0 → rc = EXIT_SUCCESS)) ∧
    ∃ rc s2, redisstrmodule_close env s = .ok (rc, s2) ∧
      (env.sink (s.log ++ [SinkCall.redis_lpush_strings s.queue_name []]) = 0 →
        s2.log = s.log ++ [SinkCall.redis_lpush_strings s.queue_name []]
          ++ [SinkCall.redis_close]) ∧
      (env.sink (s.log ++ [SinkCall.redis_lpush_strings s.queue_name []]) ≠ 0 →
        s2.log = s.log ++ [SinkCall.redis_lpush_strings s.queue_name []]) := by
  have hP := pending_zero s h
  constructor
  · rw [flush_spec env s [] hP]
    by_cases h1 : env.sink (s.log ++ [SinkCall.redis_lpush_strings s.queue_name []]) = 0
    · rw [if_neg (by simpa using h1)]
      exact ⟨_, _, rfl, rfl, rfl, rfl, rfl, rfl, rfl, fun _ => rfl⟩
    · rw [if_pos h1]
      exact ⟨_, _, rfl, rfl, rfl, rfl, rfl, h, rfl, fun h2 => absurd h2 h1⟩
  · rw [close_spec env s [] hP]
    by_cases h1 : env.sink (s.log ++ [SinkCall.redis_lpush_strings s.queue_name []]) = 0
    · rw [if_neg (by simpa using h1)]
      by_cases h2 : env.sink (s.log ++ [SinkCall.redis_lpush_strings s.queue_name []]
          ++ [SinkCall.redis_close]) = 0
      · rw [if_neg (by simpa using h2)]
        exact ⟨_, _, rfl, fun _ => rfl, fun h3 => absurd h1 h3⟩
      · rw [if_pos h2]
        exact ⟨_, _, rfl, fun _ => rfl, fun h3 => absurd h1 h3⟩
    · rw [if_pos h1]
      exact ⟨_, _, rfl, fun h3 => absurd h3 h1, fun _ => rfl⟩

/-- C6, witness: the state that `redisstrmodule_init` returns. -/
theorem C6_flush_of_empty_batch_witness :
    ∃ rc s1, redisstrmodule_flush env_ok (redisstrmodule_init env_ok none).2 = .ok (rc, s1) ∧
      s1.log = (redisstrmodule_init env_ok none).2.log ++
        [SinkCall.redis_lpush_strings (redisstrmodule_init env_ok none).2.queue_name []] ∧
      s1.heap = (redisstrmodule_init env_ok none).2.heap ∧
      s1.buffer = (redisstrmodule_init env_ok none).2.buffer ∧
      s1.buffer_export = (redisstrmodule_init env_ok none).2.buffer_export ∧
      s1.buffer_fill = 0 ∧ s1.queue_name = (redisstrmodule_init env_ok none).2.queue_name ∧
      (env_ok.sink s1.log = 0 → rc = EXIT_SUCCESS) :=
  (C6_flush_of_empty_batch env_ok (redisstrmodule_init env_ok none).2
    (init_state env_ok none).2.1).1

/-- C7, counterexample.  In the state that `redisstrmodule_init` returns,
with a sink that reports an error to every call, `redisstrmodule_close`
returns failure and `redis_close` has not been called: the log ends with the
`redis_lpush_strings` call of the flush. -/
theorem C7_close_skips_teardown_after_failed_flush :
    ∃ s1, redisstrmodule_close env_fail (redisstrmodule_init env_fail none).2
        = .ok (EXIT_FAILURE, s1) ∧
      s1.log = [SinkCall.redis_init none, SinkCall.redis_lpush_strings "zmap" []] ∧
      close_calls s1.log = [] := by
  obtain ⟨_, h0, _, hP, hlog⟩ := init_state env_fail none
  have hq : (redisstrmodule_init env_fail none).2.queue_name = "zmap" := by
    rw [init_unfold]
  rw [close_spec env_fail _ [] hP, if_pos (by decide)]
  refine ⟨_, rfl, ?_, ?_⟩
  · show (redisstrmodule_init env_fail none).2.log ++ _ = _
    rw [hlog, hq]
    rfl
  · show close_calls ((redisstrmodule_init env_fail none).2.log ++ _) = []
    rw [hlog]
    rfl

/-- C7, as amended.  In a state in which the strings `ts` wait,
`redisstrmodule_close` returns.  When the sink reports an error to the call
of its flush, it returns failure at once and `redis_close` is not called.
When the flush succeeds, `redis_close` is called once, right after it.  The
value returned is failure exactly when the flush failed, or the flush
succeeded and `redis_close` reported an error. -/
theorem C7_close_teardown_only_after_flush (env : Env) (s : State) (ts : List (List Char))
    (hP : Pending s ts) :
    ∃ rc s1, redisstrmodule_close env s = .ok (rc, s1) ∧
      (env.sink (s.log ++ [SinkCall.redis_lpush_strings s.queue_name ts]) ≠ 0 →
        rc = EXIT_FAILURE ∧
        s1.log = s.log ++ [SinkCall.redis_lpush_strings s.queue_name ts]) ∧
      (env.sink (s.log ++ [SinkCall.redis_lpush_strings s.queue_name ts]) = 0 →
        s1.log = s.log ++ [SinkCall.redis_lpush_strings s.queue_name ts]
          ++ [SinkCall.redis_close]) ∧
      (rc = EXIT_FAILURE ↔
        (env.sink (s.log ++ [SinkCall.redis_lpush_strings s.queue_name ts]) ≠ 0 ∨
          (env.sink (s.log ++ [SinkCall.redis_lpush_strings s.queue_name ts]) = 0 ∧
            env.sink (s.log ++ [SinkCall.redis_lpush_strings s.queue_name ts]
              ++ [SinkCall.redis_close]) ≠ 0))) := by
  rw [close_spec env s ts hP]
  by_cases h1 : env.sink (s.log ++ [SinkCall.redis_lpush_strings s.queue_name ts]) = 0
  · rw [if_neg (by simpa using h1)]
    by_cases h2 : env.sink (s.log ++ [SinkCall.redis_lpush_strings s.queue_name ts]
        ++ [SinkCall.redis_close]) = 0
    · rw [if_neg (by simpa using h2)]
      refine ⟨_, _, rfl, fun h3 => absurd h1 h3, fun _ => rfl, ?_⟩
      constructor
      · intro h
        exact absurd h (by decide)
      · rintro (h | ⟨_, h⟩)
        · exact absurd h1 h
        · exact absurd h2 h
    · rw [if_pos h2]
      exact ⟨_, _, rfl, fun h3 => absurd h1 h3, fun _ => rfl, fun _ => Or.inr ⟨h1, h2⟩,
        fun _ => rfl⟩
  · rw [if_pos h1]
    exact ⟨_, _, rfl, fun _ => ⟨rfl, rfl⟩, fun h3 => absurd h3 h1, fun _ => Or.inl h1,
      fun _ => rfl⟩

/-- C7, witness: the state that `redisstrmodule_init` returns, with a sink
that reports an error to every call. -/
theorem C7_close_teardown_only_after_flush_witness :
    ∃ rc s1, redisstrmodule_close env_fail (redisstrmodule_init env_fail none).2
        = .ok (rc, s1) ∧
      (env_fail.sink ((redisstrmodule_init env_fail none).2.log ++
          [SinkCall.redis_lpush_strings (redisstrmodule_init env_fail none).2.queue_name []])
          ≠ 0 →
        rc = EXIT_FAILURE ∧
        s1.log = (redisstrmodule_init env_fail none).2.log ++
          [SinkCall.redis_lpush_strings (redisstrmodule_init env_fail none).2.queue_name []]) :=
  match C7_close_teardown_only_after_flush env_fail (redisstrmodule_init env_fail none).2 []
    (init_state env_fail none).2.2.2.1 with
  | ⟨rc, s1, h1, h2, _, _⟩ => ⟨rc, s1, h1, h2⟩

/-- C8.  From the state that `redisstrmodule_init` returns, with a sink that
reports success, for `M` records that the slots accept, `1 ≤ M <
BUFFER_SIZE`: the `M` calls of `redisstrmodule_process` and the call of
`redisstrmodule_close` return, `close` returns success, and the calls made to
the sink after `redis_init` are exactly one `redis_lpush_strings`, with the
`M` rendered texts in order, followed by one `redis_close`. -/
theorem C8_close_drains_partial_batch (env : Env) (args : Option String)
    (rs : List fieldset_t) (hsink : ∀ log, env.sink log = 0)
    (hA : ∀ fs ∈ rs, Accepts DEFAULT_STR_LEN fs) (_hpos : 1 ≤ rs.length)
    (hlt : rs.length < BUFFER_SIZE) :
    ∃ rcs s s1, process_all env (redisstrmodule_init env args).2 rs = .ok (rcs, s) ∧
      redisstrmodule_close env s = .ok (EXIT_SUCCESS, s1) ∧
      s1.log = [SinkCall.redis_init args,
        SinkCall.redis_lpush_strings (redisstrmodule_init env args).2.queue_name
          (rs.map csv_text),
        SinkCall.redis_close] ∧
      (rs.map csv_text).length = rs.length := by
  obtain ⟨hI, h0, hL, hP, hlog⟩ := init_state env args
  obtain ⟨rcs, s, e1, _, _, p1, _, g1, q1, _⟩ := process_all_below env DEFAULT_STR_LEN rs
    _ [] hI hL hP hA (by rw [h0]; omega)
  simp only [List.nil_append] at p1
  have hc := close_spec env s _ p1
  rw [if_neg (fun h => h (hsink _)), if_neg (fun h => h (hsink _))] at hc
  refine ⟨rcs, s, _, e1, hc, ?_, List.length_map _ _⟩
  show s.log ++ [SinkCall.redis_lpush_strings s.queue_name (rs.map csv_text)]
    ++ [SinkCall.redis_close] = _
  rw [g1, q1, hlog]
  rfl

/-- C8, witness: two records, with the sink `env_ok`. -/
theorem C8_close_drains_partial_batch_witness :
    ∃ rcs s s1, process_all env_ok (redisstrmodule_init env_ok none).2
        [[field_t.FS_UINT64 7], [field_t.FS_NULL, field_t.FS_BINARY [10]]] = .ok (rcs, s) ∧
      redisstrmodule_close env_ok s = .ok (EXIT_SUCCESS, s1) ∧
      s1.log = [SinkCall.redis_init none,
        SinkCall.redis_lpush_strings (redisstrmodule_init env_ok none).2.queue_name
          ([[field_t.FS_UINT64 7], [field_t.FS_NULL, field_t.FS_BINARY [10]]].map csv_text),
        SinkCall.redis_close] ∧
      ([[field_t.FS_UINT64 7], [field_t.FS_NULL, field_t.FS_BINARY [10]]].map csv_text).length
        = ([[field_t.FS_UINT64 7],
            [field_t.FS_NULL, field_t.FS_BINARY [10]]] : List fieldset_t).length :=
  C8_close_drains_partial_batch env_ok none
    [[field_t.FS_UINT64 7], [field_t.FS_NULL, field_t.FS_BINARY [10]]]
    (fun _ => rfl) (by decide) (by decide) (by decide)

/-- C9 (the code departs from the claim).  In the state that
`redisstrmodule_init` returns, the slot of index 0 has capacity
`DEFAULT_STR_LEN` = 1024.  The record of 39 integer fields needs
`guess_csv_string_length` = 1816 bytes, more than the slot has, so the test
of source line 150 holds and the slot's block is replaced.
`redisstrmodule_process` returns, and the capacity recorded for the slot is
still 1024, not `max 1024 1816`: the new size is never stored in `len`. -/
theorem C9_capacity_not_updated (env : Env) (args : Option String) :
    ∃ v0 rc s1 v1,
      guess_csv_string_length (List.replicate 39 (field_t.FS_UINT64 0)) = .ok 1816 ∧
      at_index (redisstrmodule_init env args).2.buffer 0 = .ok v0 ∧ v0.len = 1024 ∧
      redisstrmodule_process env (redisstrmodule_init env args).2
        (List.replicate 39 (field_t.FS_UINT64 0)) = .ok (rc, s1) ∧
      at_index s1.buffer 0 = .ok v1 ∧ v1.len = 1024 ∧ v1.len ≠ max v0.len 1816 := by
  obtain ⟨hI, h0, hL, hP, _⟩ := init_state env args
  obtain ⟨v0, a0, l0⟩ := slot_len _ DEFAULT_STR_LEN 0 hI hL (le_refl _) (by decide)
  obtain ⟨rc, s1, e1, i1, l1, _, _, _, _⟩ := process_spec env _
    (List.replicate 39 (field_t.FS_UINT64 0)) [] DEFAULT_STR_LEN hI hL
    (by rw [h0]; decide) (by decide) hP
  obtain ⟨v1, a1, l2⟩ := slot_len s1 DEFAULT_STR_LEN 0 i1 l1 (le_refl _) (by decide)
  refine ⟨v0, rc, s1, v1, ?_, a0, l0, e1, a1, l2, ?_⟩
  · rw [guess_eq _ (by decide)]
    rfl
  · rw [l2, l0]
    decide

/-- C11.  For every byte sequence `b`: the hex text `hex b` has `2 *
length b` characters, of which characters `2 i` and `2 i + 1` are the digits
of the high and of the low half of byte `i`; the digits of 0..15 are
`0`..`9`, `a`..`f`; `hex_encode_str` stores exactly this text, followed by a
terminator when `b` is not empty, and leaves the rest of the block as it was;
the bytes 00, ff, 1a give `00ff1a`; and `make_csv_string` on the record whose
only field is the blob `b` leaves the text `hex b`. -/
theorem C11_hex_encoding (b : List Nat) :
    (hex b).length = 2 * b.length ∧
    (∀ i x, b[i]? = some x →
      (hex b)[2 * i]? = some (Nat.digitChar (x % 256 / 16)) ∧
      (hex b)[2 * i + 1]? = some (Nat.digitChar (x % 256 % 16))) ∧
    (∀ n, n < 16 → Nat.digitChar n ∈ "0123456789abcdef".toList) ∧
    (∀ m : List Char, 2 * b.length + 1 ≤ m.length →
      hex_encode_str m 0 b
        = .ok (if b = [] then m else hex b ++ NUL :: m.drop (2 * b.length + 1))) ∧
    hex [0, 255, 26] = ['0', '0', 'f', 'f', '1', 'a'] ∧
    (∀ (out : List Char) (len : Nat), 2 * b.length < len → len ≤ out.length →
      ∃ out1, make_csv_string [field_t.FS_BINARY b] out len = .ok out1 ∧
        cstr out1 = hex b) := by
  refine ⟨hex_length b, hex_getElem b, by decide, ?_, by decide, ?_⟩
  · intro m hm
    by_cases hb : b = []
    · subst hb
      rfl
    · rw [if_neg hb]
      exact hex_encode_str_zero b m hb hm
  · intro out len h1 h2
    have hf : Fits len out.length 0 [field_t.FS_BINARY b] [] := by
      refine fits_single _ _ _ ⟨fun h => absurd rfl h, ?_, fun _ => by omega⟩
      refine lt_of_le_of_lt (Nat.mod_le _ _) ?_
      have := Nat.mod_le (2 * b.length) SIZE_T
      simp only [delim, ne_eq, not_true_eq_false, if_false]
      omega
    obtain ⟨rest1, e1, _, e3⟩ := make_csv_string_ok [field_t.FS_BINARY b] out len
      (by omega) h2 hf
    refine ⟨_, e1, ?_⟩
    rw [cstr_text _ _ e3, csv_text_single]
    cases b with
    | nil => rfl
    | cons x bs => rfl

/-- C12.  For every record of recognised field kinds,
`guess_csv_string_length` returns `2 * S + 256` reduced modulo `SIZE_T`
(`size_t` arithmetic), where `S = est_sum fs` is the sum over the fields of
`length + 2` for a text, `INT_STR_LEN` = 20 for an integer, twice the byte
length for a blob and 0 for a null field. -/
theorem C12_estimate_formula (fs : fieldset_t) (h : Recognised fs) :
    guess_csv_string_length fs = .ok ((2 * est_sum fs + 256) % SIZE_T) ∧
    (∀ ptr, field_est (field_t.FS_STRING ptr) = ptr.length + 2) ∧
    (∀ num, field_est (field_t.FS_UINT64 num) = 20) ∧
    (∀ ptr, field_est (field_t.FS_BINARY ptr) = 2 * ptr.length) ∧
    field_est field_t.FS_NULL = 0 ∧
    est_sum fs = (fs.map field_est).sum := by
  refine ⟨guess_eq_of_recognised fs h, fun _ => rfl, fun _ => rfl, fun _ => rfl, rfl, ?_⟩
  clear h
  induction fs with
  | nil => rfl
  | cons f fs ih => simp [est_sum, ih]

/-- C12, witness: a record with one field of each recognised kind; its
estimate is `2 * (5 + 20 + 4 + 0) + 256 = 314`. -/
theorem C12_estimate_formula_witness :
    guess_csv_string_length [field_t.FS_STRING ['a', ',', 'b'], field_t.FS_UINT64 7,
        field_t.FS_BINARY [0, 255], field_t.FS_NULL] = .ok 314 :=
  (C12_estimate_formula [field_t.FS_STRING ['a', ',', 'b'], field_t.FS_UINT64 7,
    field_t.FS_BINARY [0, 255], field_t.FS_NULL] (by decide)).1

/-- C13.  For every value `v`, the decimal text `dec64 v` that
`make_csv_string` stores for an integer field holding `(uint64_t) v` has at
most `INT_STR_LEN` = 20 characters; for `v = 2 ^ 64 - 1` it is
`18446744073709551615`, of exactly 20 characters; and `make_csv_string` on
the record whose only field is that integer leaves exactly this text. -/
theorem C13_integer_text_length (v : Nat) :
    (dec64 v).length ≤ INT_STR_LEN ∧ INT_STR_LEN = 20 ∧
    dec64 (2 ^ 64 - 1) = "18446744073709551615".toList ∧
    (dec64 (2 ^ 64 - 1)).length = 20 ∧
    (∀ (out : List Char) (len : Nat), INT_STR_LEN < len → len ≤ out.length →
      ∃ out1, make_csv_string [field_t.FS_UINT64 v] out len = .ok out1 ∧
        cstr out1 = dec64 v) := by
  refine ⟨dec64_length v, rfl, by decide, by decide, ?_⟩
  intro out len h1 h2
  have hl := dec64_length v
  have hf : Fits len out.length 0 [field_t.FS_UINT64 v] [] := by
    refine fits_single _ _ _ ⟨fun h => absurd rfl h, ?_, ?_⟩
    · refine lt_of_le_of_lt (Nat.mod_le _ _) ?_
      simp only [delim, ne_eq, not_true_eq_false, if_false]
      omega
    · simp only [List.length_nil]
      omega
  obtain ⟨rest1, e1, _, e3⟩ := make_csv_string_ok [field_t.FS_UINT64 v] out len
    (by omega) h2 hf
  refine ⟨_, e1, ?_⟩
  rw [cstr_text _ _ e3, csv_text_single]
  simp [field_text]

/-- C14 (the code departs from the claim).  `make_csv_string` on the record
of the two texts `abc` and `abc`, with capacity argument 5 in a block of 12
bytes, takes no `log_fatal` branch and leaves the text `abcabc`, of 6 > 5 - 1
characters: each capacity check compares `strlen(temp)`, which is 0 or 1,
plus the size of the field with `len`, not the length of the text already in
`out`.  The same happens through `redisstrmodule_process`: from the state
that `redisstrmodule_init` returns, the record of two texts of 600
characters leaves a text of 1200 characters in a slot whose recorded
capacity is 1024. -/
theorem C14_text_longer_than_capacity (c : Char) (env : Env) (args : Option String) :
    (∃ out1, make_csv_string [field_t.FS_STRING ['a', 'b', 'c'], field_t.FS_STRING ['a', 'b', 'c']]
        (List.replicate 12 c) 5 = .ok out1 ∧
      cstr out1 = ['a', 'b', 'c', 'a', 'b', 'c'] ∧ 5 - 1 < (cstr out1).length) ∧
    (∃ rc s1 t v, redisstrmodule_process env (redisstrmodule_init env args).2
        [field_t.FS_STRING (List.replicate 600 'a'), field_t.FS_STRING (List.replicate 600 'a')]
        = .ok (rc, s1) ∧
      read_strings s1.heap s1.buffer_export s1.buffer_fill = .ok [t] ∧
      at_index s1.buffer 0 = .ok v ∧ v.len = 1024 ∧ v.len - 1 < t.length) := by
  constructor
  · obtain ⟨out1, e1, _, e3, _⟩ := make_csv_string_text
      [field_t.FS_STRING ['a', 'b', 'c'], field_t.FS_STRING ['a', 'b', 'c']]
      (List.replicate 12 c) 5 (by decide) (by decide) (by decide)
      (by rw [List.length_replicate]; decide) (by rw [List.length_replicate]; decide)
    refine ⟨out1, e1, ?_, ?_⟩
    · rw [e3]
      decide
    · rw [e3]
      decide
  · obtain ⟨hI, h0, hL, hP, _⟩ := init_state env args
    obtain ⟨rc, s1, e1, i1, l1, _, _, hbelow, _⟩ := process_spec env _
      [field_t.FS_STRING (List.replicate 600 'a'), field_t.FS_STRING (List.replicate 600 'a')]
      [] DEFAULT_STR_LEN hI hL (by rw [h0]; decide)
      (accepts_two_texts _ (nulFree_replicate 600 'a' (by decide)) (List.length_replicate _ _)) hP
    obtain ⟨_, _, _, p1⟩ := hbelow (by rw [h0]; decide)
    obtain ⟨v, a1, l2⟩ := slot_len s1 DEFAULT_STR_LEN 0 i1 l1 (le_refl _) (by decide)
    refine ⟨rc, s1, _, v, e1, p1, a1, l2, ?_⟩
    rw [l2, csv_text_two_texts _ (not_mem_replicate 600 'a' COMMA (by decide))]
    simp only [List.length_append, List.length_replicate]
    decide

/-- C15 (the code departs from the claim).  From the state that
`redisstrmodule_init` returns, `redisstrmodule_process` on the record of one
text of 1024 characters ends in `log_fatal("redis-str", "out of
memory---will overflow")`.  The estimate is 2308, the slot has 1024 bytes, so
the block is replaced by one of 2308 bytes; but `make_csv_string` is given
the capacity still recorded in `len`, 1024, and its check `0 + 1024 >= 1024`
holds. -/
theorem C15_overflow_branch_is_reached (env : Env) (args : Option String) :
    guess_csv_string_length [field_t.FS_STRING (List.replicate 1024 'a')] = .ok 2308 ∧
    redisstrmodule_process env (redisstrmodule_init env args).2
      [field_t.FS_STRING (List.replicate 1024 'a')] = .error Fault.fatal_overflow := by
  have hw : WellFormed [field_t.FS_STRING (List.replicate 1024 'a')] := by
    intro f hf
    simp only [List.mem_singleton] at hf
    subst hf
    exact nulFree_replicate 1024 'a' (by decide)
  have hg : guess_csv_string_length [field_t.FS_STRING (List.replicate 1024 'a')]
      = .ok 2308 := by
    rw [guess_eq _ hw]
    simp only [est_sum, field_est, List.length_replicate]
    rfl
  refine ⟨hg, ?_⟩
  obtain ⟨hI, h0, hL, hP, _⟩ := init_state env args
  obtain ⟨v, hv, hvl⟩ := slot_at_fill _ DEFAULT_STR_LEN hI hL (by rw [h0])
    (by rw [h0]; decide)
  obtain ⟨s1, v1, b, e1, _, _, _, _, _, _, a1, n1, hb, hgb⟩ :=
    grow_spec env _ 2308 [] v hI hv hP
  apply process_error
  simp only [store_record, hg, hv, e1, render_slot, a1, load, hb]
  rw [make_csv_string_overflow _ _ _ _ (by rw [n1, hvl]; decide)
    (by rw [n1, hvl]; exact le_trans (by decide) hgb)
    (by rw [n1, hvl, List.length_replicate]; decide)]

/-- C16.  In every state reached from the state that `redisstrmodule_init`
returns by calls of `redisstrmodule_process` made while `buffer_fill <
BUFFER_SIZE` and by calls of `redisstrmodule_flush`, whatever the sink
answers, `0 ≤ buffer_fill ≤ BUFFER_SIZE`; and when such a call of
`redisstrmodule_process` returns success, `buffer_fill < BUFFER_SIZE` after
it.  The state after initialisation is such a state, with `buffer_fill =
0`. -/
theorem C16_fill_within_bounds (env : Env) :
    (∀ s, Reach env s → 0 ≤ s.buffer_fill ∧ s.buffer_fill ≤ BUFFER_SIZE) ∧
    (∀ s fs s1, Reach env s → s.buffer_fill < BUFFER_SIZE →
      redisstrmodule_process env s fs = .ok (EXIT_SUCCESS, s1) →
      0 ≤ s1.buffer_fill ∧ s1.buffer_fill < BUFFER_SIZE) ∧
    (∀ args, Reach env (redisstrmodule_init env args).2 ∧
      (redisstrmodule_init env args).2.buffer_fill = 0) := by
  refine ⟨reach_fill env, ?_, fun args => ⟨Reach.init args, (init_state env args).2.1⟩⟩
  intro s fs s1 hr hlt hp
  have h0 := (reach_fill env s hr).1
  rcases process_cases env s s1 fs _ hp with ⟨hne, _, hf⟩ | ⟨_, ⟨_, hf⟩ | ⟨hrc, _⟩⟩
  · rw [hf]
    omega
  · rw [hf]
    exact ⟨le_refl _, by decide⟩
  · exact absurd hrc (by decide)

/-- C17, counterexample.  With a sink that reports an error to every call,
`BUFFER_SIZE` calls of `redisstrmodule_process` from the state that
`redisstrmodule_init` returns leave `buffer_fill = BUFFER_SIZE`; one more
call then reads `buffer[BUFFER_SIZE]`, outside the array: it has no value to
return, so it does not return success with `buffer_fill = BUFFER_SIZE +
1`. -/
theorem C17_further_call_has_no_result :
    ∃ rcs s, process_all env_fail (redisstrmodule_init env_fail none).2
        (List.replicate BUFFER_SIZE [field_t.FS_UINT64 7]) = .ok (rcs, s) ∧
      s.buffer_fill = BUFFER_SIZE ∧
      redisstrmodule_process env_fail s [field_t.FS_UINT64 7] = .error Fault.memory := by
  obtain ⟨hI, h0, hL, _, _⟩ := init_state env_fail none
  obtain ⟨rcs, rc, s, e1, _, _, _, _, _, hf⟩ := process_all_full env_fail DEFAULT_STR_LEN
    (List.replicate BUFFER_SIZE [field_t.FS_UINT64 7]) _ hI hL h0
    (accepts_replicate _ _ _ (by decide)) (List.length_replicate _ _)
  obtain ⟨_, hfill, _⟩ := hf (env_fail_sink _)
  exact ⟨_, s, e1, hfill, (process_out_of_bounds env_fail s _ hfill (by decide)).2⟩

/-- C17, as amended.  `redisstrmodule_process` does not test `buffer_fill`
before it indexes `buffer`.  When the sink reports an error to the flush of a
full batch, `BUFFER_SIZE` calls of `redisstrmodule_process` (for records that
the slots accept, from the state that `redisstrmodule_init` returns) return,
the last one with failure, and leave `buffer_fill = BUFFER_SIZE`; a further
call, for any record of recognised kinds, indexes `buffer[BUFFER_SIZE]`,
which is outside the array (indices `0 .. BUFFER_SIZE - 1`): the access is
out of bounds and the call has no defined result. -/
theorem C17_fill_bound_not_enforced (env : Env) (args : Option String)
    (rs : List fieldset_t) (hsink : ∀ log, env.sink log ≠ 0)
    (hA : ∀ fs ∈ rs, Accepts DEFAULT_STR_LEN fs) (hlen : rs.length = BUFFER_SIZE) :
    ∃ rcs s, process_all env (redisstrmodule_init env args).2 rs
        = .ok (rcs ++ [EXIT_FAILURE], s) ∧
      Reach env s ∧ s.buffer_fill = BUFFER_SIZE ∧
      ∀ fs, Recognised fs →
        at_index s.buffer s.buffer_fill = .error Fault.memory ∧
        redisstrmodule_process env s fs = .error Fault.memory := by
  obtain ⟨hI, h0, hL, _, _⟩ := init_state env args
  obtain ⟨rcs, rc, s, e1, _, _, _, _, _, hf⟩ :=
    process_all_full env DEFAULT_STR_LEN rs _ hI hL h0 hA hlen
  obtain ⟨hrc, hfill, _⟩ := hf (hsink _)
  subst hrc
  refine ⟨rcs, s, e1, ?_, hfill, fun fs hr => process_out_of_bounds env s fs hfill hr⟩
  exact process_all_reach env rs _ s _ (Reach.init args) (by rw [h0, hlen]; simp) e1

/-- C17, witness: `BUFFER_SIZE` records of one integer field each, with the
sink `env_fail`. -/
theorem C17_fill_bound_not_enforced_witness :
    ∃ rcs s, process_all env_fail (redisstrmodule_init env_fail none).2
        (List.replicate BUFFER_SIZE [field_t.FS_UINT64 7]) = .ok (rcs ++ [EXIT_FAILURE], s) ∧
      Reach env_fail s ∧ s.buffer_fill = BUFFER_SIZE ∧
      ∀ fs, Recognised fs →
        at_index s.buffer s.buffer_fill = .error Fault.memory ∧
        redisstrmodule_process env_fail s fs = .error Fault.memory :=
  C17_fill_bound_not_enforced env_fail none (List.replicate BUFFER_SIZE [field_t.FS_UINT64 7])
    env_fail_sink (accepts_replicate _ _ _ (by decide)) (List.length_replicate _ _)

/-- C18.  For every record without binary field whose rendering passes the
capacity checks and stays inside the block (`Fits`), `make_csv_string`
returns and leaves the concatenation, in field order, of: for a text field
its encoding (verbatim, or between quotes when it contains the delimiter),
for an integer field its decimal text, neither with a delimiter in front, and
for a null field one `,` when its index is not 0 and nothing when it is 0.
So the record of the integers 1 and 2 gives `12`, and the record of 1, a null
field and 2 gives `1,2`. -/
theorem C18_text_without_binary_fields (fs : fieldset_t) (out : List Char) (len : Nat)
    (hnb : NoBinary fs) (h1 : 1 ≤ len) (h2 : len ≤ out.length)
    (hf : Fits len out.length 0 fs []) :
    (∃ out1, make_csv_string fs out len = .ok out1 ∧ cstr out1 = pieces 0 fs) ∧
    (∀ i ptr, piece i (field_t.FS_STRING ptr)
      = if COMMA ∈ ptr then QUOTE :: (ptr ++ [QUOTE]) else ptr) ∧
    (∀ i num, piece i (field_t.FS_UINT64 num) = dec64 num) ∧
    (∀ i, piece (i + 1) field_t.FS_NULL = [COMMA]) ∧
    piece 0 field_t.FS_NULL = [] ∧
    pieces 0 [field_t.FS_UINT64 1, field_t.FS_UINT64 2] = ['1', '2'] ∧
    pieces 0 [field_t.FS_UINT64 1, field_t.FS_NULL, field_t.FS_UINT64 2] = ['1', ',', '2'] := by
  refine ⟨?_, fun _ _ => rfl, fun _ _ => rfl, fun _ => rfl, rfl, by decide, by decide⟩
  obtain ⟨rest1, e1, _, e3⟩ := make_csv_string_ok fs out len h1 h2 hf
  refine ⟨_, e1, ?_⟩
  rw [cstr_text _ _ e3, csv_text, loop_text_pieces fs 0 [] hnb]
  rfl

/-- C18, witness: the record of the integer 1, a null field and the integer
2, with capacity 64 in a block of 64 bytes. -/
theorem C18_text_without_binary_fields_witness :
    ∃ out1, make_csv_string [field_t.FS_UINT64 1, field_t.FS_NULL, field_t.FS_UINT64 2]
        (List.replicate 64 NUL) 64 = .ok out1 ∧
      cstr out1 = pieces 0 [field_t.FS_UINT64 1, field_t.FS_NULL, field_t.FS_UINT64 2] :=
  (C18_text_without_binary_fields [field_t.FS_UINT64 1, field_t.FS_NULL, field_t.FS_UINT64 2]
    (List.replicate 64 NUL) 64
    (fun f hf b e => by subst e; simp at hf)
    (by decide) (by rw [List.length_replicate])
    (fits_of_bounds 64 _ _ 0 [] (by decide) (by decide)
      (by rw [List.length_replicate]; decide))).1

/-- C19.  For every record whose last field is a non-empty blob `b` and whose
rendering passes the capacity checks and stays inside the block (`Fits`),
`make_csv_string` returns and leaves exactly the hex text of `b`:
`hex_encode_str` is given the start of the buffer, and its terminator ends
the text there, whatever the earlier fields had left. -/
theorem C19_last_binary_field_replaces_text (pre : fieldset_t) (b : List Nat)
    (out : List Char) (len : Nat) (hb : b ≠ []) (h1 : 1 ≤ len) (h2 : len ≤ out.length)
    (hf : Fits len out.length 0 (pre ++ [field_t.FS_BINARY b]) []) :
    ∃ out1, make_csv_string (pre ++ [field_t.FS_BINARY b]) out len = .ok out1 ∧
      cstr out1 = hex b := by
  obtain ⟨rest1, e1, _, e3⟩ := make_csv_string_ok _ out len h1 h2 hf
  refine ⟨_, e1, ?_⟩
  rw [cstr_text _ _ e3, csv_text, loop_text_last_binary pre b hb]

/-- C19, witness: the record of the text `a,b`, the integer 7 and the blob
`0a`, with capacity 64 in a block of 64 bytes; the text left is `0a`. -/
theorem C19_last_binary_field_replaces_text_witness :
    (∃ out1, make_csv_string
        ([field_t.FS_STRING ['a', ',', 'b'], field_t.FS_UINT64 7] ++ [field_t.FS_BINARY [10]])
        (List.replicate 64 NUL) 64 = .ok out1 ∧
      cstr out1 = hex [10]) ∧ hex [10] = ['0', 'a'] :=
  ⟨C19_last_binary_field_replaces_text [field_t.FS_STRING ['a', ',', 'b'], field_t.FS_UINT64 7]
    [10] (List.replicate 64 NUL) 64 (by decide) (by decide) (by rw [List.length_replicate])
    (fits_of_bounds 64 _ _ 0 [] (by decide) (by decide)
      (by rw [List.length_replicate]; decide)), by decide⟩
end RedisStr
